import Mathlib

/-!
Verification of the go-ds/skiplist repository (src/skiplist.go).

The Go code is shallowly embedded as follows.

* Keys are `float64` in Go; the code compares keys only with `<` and `==`.
  We model a float64 key as `FKey`: `FKey.nan` is IEEE NaN and `FKey.num z`
  is a non-NaN float, with the totally ordered non-NaN floats abstracted by
  `Int`.  `flt`/`feq` implement the IEEE comparison behaviour the code
  relies on: every comparison involving NaN is false.
* Values are `interface x` in Go; they are modelled as `Int` (opaque payloads).
* The mutable heap of `*node` pointers is modelled as a function
  `node : Nat -> Node` together with an allocation bound `numNodes`; a Go
  `nil` pointer is `Option.none` and a non-nil pointer to node `j` is
  `some j`.  The head sentinel is node `0`.
* Each Go loop that walks `next` pointers is translated with explicit fuel
  `numNodes + 1`; a walk can only visit pairwise distinct nodes in any state
  produced by the operations, so the fuel is never exhausted there and the
  fuelled walk agrees with the Go loop.
* `list.update` is the cross-call scratch table stored on the struct, exactly
  as in the Go code (it is threaded through the state and reused).
-/

/-- A float64 key: NaN, or a non-NaN (totally ordered) float modelled by `Int`. -/
inductive FKey where
  | nan : FKey
  | num : Int → FKey
deriving DecidableEq, Repr

/-- Go `<` on float64: any comparison with NaN is false. -/
def flt : FKey → FKey → Bool
  | FKey.num a, FKey.num b => a < b
  | _, _ => false

/-- Go `==` on float64: any comparison with NaN is false (NaN != NaN). -/
def feq : FKey → FKey → Bool
  | FKey.num a, FKey.num b => a == b
  | _, _ => false

/-- The Go `node` struct: per-level forward pointers (`next`, length = the
node's level), the key, and the value. -/
structure Node where
  next : List (Option Nat)
  key : FKey
  value : Int
deriving DecidableEq, Repr

/-- The Go `SkipList` struct.  `node`/`numNodes` model the pointer heap
(node 0 is the head sentinel); `update` is the scratch table stored on the
struct and reused across calls, as in the source. -/
structure SL where
  node : Nat → Node
  numNodes : Nat
  maxLevel : Nat
  level : Nat
  length : Int
  update : List (Option Nat)

/-- Dereference `j.next[i]` (reading past the slice is `none`; the Go code
never does so in a reachable state). -/
def getNext (s : SL) (j i : Nat) : Option Nat := (s.node j).next.getD i none

/-- The level of node `j`: the length of its `next` slice. -/
def partLv (s : SL) (j : Nat) : Nat := (s.node j).next.length

/-- The key of node `j`. -/
def keyOf (s : SL) (j : Nat) : FKey := (s.node j).key

/-- Heap store `j.next[i] = p`. -/
def setNext (s : SL) (j i : Nat) (p : Option Nat) : SL :=
  { s with node := fun j' => if j' = j then
      { s.node j with next := (s.node j).next.set i p } else s.node j' }

/-- The inner loop of the search in `Search`/`Insert`/`Pop`:
`for cur.next[i] != nil && cur.next[i].key < key { cur = cur.next[i] }`,
with explicit fuel. -/
def walk (s : SL) (key : FKey) (i : Nat) : Nat → Nat → Nat
  | 0, cur => cur
  | f + 1, cur =>
    match getNext s cur i with
    | none => cur
    | some nx => if flt (keyOf s nx) key then walk s key i f nx else cur

/-- Fuel for the walks: strictly more than the number of allocated nodes. -/
def fuelOf (s : SL) : Nat := s.numNodes + 1

/-- The mutation-mode descent of `Insert`/`Pop`: from level index `i-1`
down to `0`, walk at each level and record `update[i] = cur`. -/
def descend (s : SL) (key : FKey) : Nat → Nat → List (Option Nat) → Nat × List (Option Nat)
  | 0, cur, upd => (cur, upd)
  | i + 1, cur, upd =>
    let c := walk s key i (fuelOf s) cur
    descend s key i c (upd.set i (some c))

/-- The read-only descent of `Search` (no `update` recording). -/
def descendRO (s : SL) (key : FKey) : Nat → Nat → Nat
  | 0, cur => cur
  | i + 1, cur => descendRO s key i (walk s key i (fuelOf s) cur)

/-- `func (list *SkipList) Search(key float64) interface{}`. -/
def SL.Search (s : SL) (key : FKey) : Option Int :=
  let cur := descendRO s key s.level 0
  match getNext s cur 0 with
  | some j => if feq (keyOf s j) key then some (s.node j).value else none
  | none => none

/-- The splice loop of `Insert`: for `i` from `lvl-1` down to `0`,
if `update[i] != nil` then `n.next[i] = update[i].next[i]; update[i].next[i] = n`
else `list.head.next[i] = n`. -/
def spliceLevels (nid : Nat) (upd : List (Option Nat)) : Nat → SL → SL
  | 0, s => s
  | i + 1, s =>
    let s' := match upd.getD i none with
      | some p => setNext (setNext s nid i (getNext s p i)) p i (some nid)
      | none => setNext s 0 i (some nid)
    spliceLevels nid upd i s'

/-- `func (list *SkipList) Insert(key float64, value interface{})`.
The level sampled by `randLevel()` is passed explicitly as `lvl`
(`randLevel` always returns a value in `[1, maxLevel]`). -/
def SL.Insert (s : SL) (key : FKey) (value : Int) (lvl : Nat) : SL :=
  let cu := descend s key s.level 0 s.update
  let cur := cu.1
  let upd := cu.2
  let dup : Option Nat :=
    match getNext s cur 0 with
    | some j => if feq (keyOf s j) key then some j else none
    | none => none
  match dup with
  | some j =>
      { s with
          update := upd
          node := fun j' => if j' = j then { s.node j with value := value } else s.node j' }
  | none =>
      let nid := s.numNodes
      let n : Node := { next := List.replicate lvl none, key := key, value := value }
      let s₂ : SL :=
        { s with
            update := upd
            numNodes := s.numNodes + 1
            node := fun j' => if j' = nid then n else s.node j' }
      let s₃ := spliceLevels nid upd lvl s₂
      { s₃ with
          level := if lvl > s.level then lvl else s.level
          length := s.length + 1 }

/-- The unlink loop of `Pop`: for `i` from `lvl-1` down to `0`,
`update[i].next[i] = n.next[i]` (a `nil` entry would crash in Go and is
unreachable; it is modelled as a skip). -/
def unlinkLevels (nid : Nat) (upd : List (Option Nat)) : Nat → SL → SL
  | 0, s => s
  | i + 1, s =>
    let s' := match upd.getD i none with
      | some p => setNext s p i (getNext s nid i)
      | none => s
    unlinkLevels nid upd i s'

/-- The level-decrease loop of `Pop`: for `i` from `level-1` down to `1`,
`if list.head.next[i] == nil { list.level-- }`. -/
def decLevels (s : SL) : Nat → Nat → Nat
  | 0, lv => lv
  | i + 1, lv => decLevels s i (if getNext s 0 (i + 1) = none then lv - 1 else lv)

/-- `func (list *SkipList) Pop(key float64) interface{}`, returning the
popped value together with the post-state. -/
def SL.PopP (s : SL) (key : FKey) : Option Int × SL :=
  let cu := descend s key s.level 0 s.update
  let upd := cu.2
  let s₁ : SL := { s with update := upd }
  match upd.getD 0 none with
  | none => (none, s₁)
  | some u0 =>
    match getNext s u0 0 with
    | none => (none, s₁)
    | some j =>
      if feq (keyOf s j) key then
        let lvn := partLv s j
        let s₂ := unlinkLevels j upd lvn s₁
        let lv' := if lvn = s.level then decLevels s₂ (lvn - 1) s.level else s.level
        (some (s₂.node j).value,
          { s₂ with
              level := lv'
              length := s.length - 1 })
      else (none, s₁)

/-- `func (list *SkipList) Delete(key float64)`: `Pop` with the value discarded. -/
def SL.Delete (s : SL) (key : FKey) : SL := (s.PopP key).2

/-- `func (list *SkipList) Len() int`. -/
def SL.Len (s : SL) : Int := s.length

/-- The head sentinel created by `New`: `next` sized to `maxLevel`,
zero-valued key and value. -/
def headNode (m : Nat) : Node :=
  { next := List.replicate m none, key := FKey.num 0, value := 0 }

/-- A freshly constructed list (`New`) with max level `m`:
head sized to `m`, `level = 1`, `length = 0`, `update` sized to `m`. -/
def mkSL (m : Nat) : SL :=
  { node := fun j => if j = 0 then headNode m else { next := [], key := FKey.num 0, value := 0 }
    numNodes := 1
    maxLevel := m
    level := 1
    length := 0
    update := List.replicate m none }

/-- `minLevel = 1` in the source. -/
def minLevelC : Nat := 1

/-- `maxLevel = 64` in the source. -/
def maxLevelC : Nat := 64

/-- Construction through `New(WithMaxLevel(v))`: `WithMaxLevel` panics
(modelled as `none`) when `v` is outside `[minLevel, maxLevel] = [1, 64]`,
otherwise the list is built with exactly that max level. -/
def newWithMaxLevel (v : Int) : Option SL :=
  if v < (minLevelC : Int) ∨ v > (maxLevelC : Int) then none
  else some (mkSL v.toNat)

/-- One public mutating call.  `ins` carries the level that `randLevel()`
returned for that call. -/
inductive Op where
  | ins (k : FKey) (v : Int) (lvl : Nat)
  | del (k : FKey)
  | pop (k : FKey)
deriving DecidableEq, Repr

/-- Apply one call to the state. -/
def applyOp (s : SL) : Op → SL
  | Op.ins k v l => s.Insert k v l
  | Op.del k => s.Delete k
  | Op.pop k => (s.PopP k).2

/-- Run a call sequence left to right. -/
def runOps (s : SL) : List Op → SL
  | [] => s
  | o :: rest => runOps (applyOp s o) rest

/-- A call is well formed for max level `m`: its key is not NaN, and an
insert's sampled level lies in `[1, m]` (the range `randLevel` guarantees). -/
def Op.ok (m : Nat) : Op → Prop
  | Op.ins k _ l => k ≠ FKey.nan ∧ 1 ≤ l ∧ l ≤ m
  | Op.del k => k ≠ FKey.nan
  | Op.pop k => k ≠ FKey.nan

instance (m : Nat) (o : Op) : Decidable (o.ok m) := by
  cases o <;> simp [Op.ok] <;> infer_instance

/-- Fuelled traversal of the level-`i` chain starting at pointer `p`. -/
def chainGo (s : SL) (i : Nat) : Nat → Option Nat → List Nat
  | 0, _ => []
  | _, none => []
  | f + 1, some j => j :: chainGo s i f (getNext s j i)

/-- The observable level-`i` chain: the node ids reachable from the head at
level `i`, in forward order. -/
def chainList (s : SL) (i : Nat) : List Nat :=
  chainGo s i (fuelOf s) (getNext s 0 i)

/-- Whether a node with key `k` is reachable at level 0 (key comparison as
the code does it, with `==`). -/
def containsKey (s : SL) (k : FKey) : Bool :=
  (chainList s 0).any (fun j => feq (keyOf s j) k)

/-- Which lock a method acquires on `list.mut` (`sync.RWMutex`). -/
inductive LockMode where
  | shared
  | exclusive
deriving DecidableEq, Repr

/-- `Search` calls `list.mut.RLock()`. -/
def searchLock : LockMode := LockMode.shared

/-- `Insert` calls `list.mut.Lock()`. -/
def insertLock : LockMode := LockMode.exclusive

/-- `Pop` calls `list.mut.Lock()`. -/
def popLock : LockMode := LockMode.exclusive

/-- `Delete` locks through its call to `Pop`. -/
def deleteLock : LockMode := popLock

/-- `Len` calls `list.mut.Lock()` (the exclusive lock) in the source. -/
def lenLock : LockMode := LockMode.exclusive

/-! ## Basic facts about the float64 comparisons -/

theorem flt_trans {a b c : FKey} (h1 : flt a b = true) (h2 : flt b c = true) :
    flt a c = true := by
  cases a <;> cases b <;> cases c <;> simp_all [flt] <;> omega

theorem flt_irrefl (a : FKey) : flt a a = false := by
  cases a <;> simp [flt]

theorem feq_self_num (z : Int) : feq (FKey.num z) (FKey.num z) = true := by
  simp [feq]

theorem flt_nan_right (a : FKey) : flt a FKey.nan = false := by
  cases a <;> simp [flt]

theorem feq_nan_right (a : FKey) : feq a FKey.nan = false := by
  cases a <;> simp [feq]

theorem not_flt_not_feq {a k : FKey} (ha : a ≠ FKey.nan) (hk : k ≠ FKey.nan)
    (h1 : flt a k = false) (h2 : feq a k = false) : flt k a = true := by
  cases a <;> cases k <;> simp_all [flt, feq] <;> omega

theorem feq_not_flt {a k : FKey} (h : feq a k = true) : flt a k = false := by
  cases a <;> cases k <;> simp_all [flt, feq]

theorem feq_flt_congr {a b k : FKey} (h : feq b k = true) :
    flt a b = flt a k := by
  cases a <;> cases b <;> cases k <;> simp_all [flt, feq]

theorem feq_trans_eq {a b k : FKey} (ha : feq a k = true) (hb : feq b k = true) :
    a = b := by
  cases a <;> cases b <;> cases k <;> simp_all [feq]

/-! ## Generic list helpers -/

/-- The last element of `l`, or `d` when `l` is empty. -/
def lastD {α : Type} : List α → α → α
  | [], d => d
  | a :: l, _ => lastD l a

@[simp] theorem lastD_nil {α : Type} (d : α) : lastD [] d = d := rfl

@[simp] theorem lastD_cons {α : Type} (a : α) (l : List α) (d : α) :
    lastD (a :: l) d = lastD l a := rfl

theorem lastD_mem {α : Type} (l : List α) (d : α) : lastD l d ∈ d :: l := by
  induction l generalizing d with
  | nil => simp
  | cons a l ih =>
    rcases (List.mem_cons).mp (ih a) with h | h
    · simp [h]
    · simp [List.mem_cons_of_mem, h]

theorem lastD_append {α : Type} (A B : List α) (c x : α) :
    lastD (A ++ x :: B) c = lastD B x := by
  induction A generalizing c with
  | nil => rfl
  | cons a A ih => simpa using ih a

theorem takeWhile_eq_filter {α : Type} (R : α → α → Prop) (p : α → Bool)
    (hdc : ∀ a b, R a b → p b = true → p a = true) :
    ∀ l : List α, l.Pairwise R → l.takeWhile p = l.filter p := by
  intro l hl
  induction l with
  | nil => rfl
  | cons a l ih =>
    rcases List.pairwise_cons.mp hl with ⟨hab, htl⟩
    by_cases hpa : p a = true
    · simp only [List.takeWhile_cons, List.filter_cons, hpa, if_pos, ih htl]
    · have hpa' : p a = false := by simpa using hpa
      have : l.filter p = [] := by
        refine List.filter_eq_nil.mpr fun b hb hpb => ?_
        exact hpa (hdc a b (hab b hb) hpb)
      simp [List.takeWhile_cons, List.filter_cons, hpa', this]

theorem filter_dropWhile_nil {α : Type} (R : α → α → Prop) (p : α → Bool)
    (hdc : ∀ a b, R a b → p b = true → p a = true)
    (l : List α) (hl : l.Pairwise R) :
    (l.dropWhile p).filter p = [] := by
  have h1 : l.takeWhile p ++ l.dropWhile p = l := List.takeWhile_append_dropWhile p l
  have h2 : l.filter p = l.takeWhile p := (takeWhile_eq_filter R p hdc l hl).symm
  have h3 : (l.takeWhile p ++ l.dropWhile p).filter p = l.takeWhile p := by
    rw [h1, ← h2]
  rw [List.filter_append] at h3
  have h4 : (l.takeWhile p).filter p = l.takeWhile p :=
    List.filter_eq_self.mpr fun b hb => List.mem_takeWhile_imp hb
  rw [h4] at h3
  have h5 : l.takeWhile p ++ (l.dropWhile p).filter p = l.takeWhile p ++ [] := by
    simpa using h3
  exact List.append_cancel_left h5

theorem dropWhile_forall_not {α : Type} (R : α → α → Prop) (p : α → Bool)
    (hdc : ∀ a b, R a b → p b = true → p a = true)
    (l : List α) (hl : l.Pairwise R) :
    ∀ a ∈ l.dropWhile p, p a = false := by
  intro a ha
  have h5 := filter_dropWhile_nil R p hdc l hl
  have := List.filter_eq_nil_iff.mp h5 a ha
  simpa using this

theorem nodup_of_pairwise_flt {α : Type} (key : α → FKey) (l : List α)
    (h : l.Pairwise fun a b => flt (key a) (key b) = true) : l.Nodup :=
  h.imp fun {a b} hab heq => by
    subst heq
    simp [flt_irrefl] at hab

theorem length_le_of_nodup_lt (l : List Nat) (n : Nat) (hnd : l.Nodup)
    (hlt : ∀ j ∈ l, j < n) : l.length ≤ n := by
  classical
  have hsub : l.toFinset ⊆ Finset.range n := by
    intro j hj
    simp only [List.mem_toFinset] at hj
    exact Finset.mem_range.mpr (hlt j hj)
  have := Finset.card_le_card hsub
  rwa [List.toFinset_card_of_nodup hnd, Finset.card_range] at this

/-! ## The chain relation: `links s i p l` says that starting from pointer `p`
and following `next` at level `i`, one passes exactly through the nodes of `l`
and then reaches `nil`. -/

def links (s : SL) (i : Nat) : Option Nat → List Nat → Prop
  | p, [] => p = none
  | p, j :: rest => p = some j ∧ links s i (getNext s j i) rest

theorem links_congr {s s' : SL} {i : Nat} {p : Option Nat} {l : List Nat}
    (h : links s i p l) (hag : ∀ j ∈ l, getNext s' j i = getNext s j i) :
    links s' i p l := by
  induction l generalizing p with
  | nil => exact h
  | cons j rest ih =>
    refine ⟨h.1, ?_⟩
    rw [hag j (by simp)]
    exact ih h.2 fun j' hj' => hag j' (by simp [hj'])

theorem links_drop {s : SL} {i : Nat} {c : Nat} {A B : List Nat}
    (h : links s i (getNext s c i) (A ++ B)) :
    links s i (getNext s (lastD A c) i) B := by
  induction A generalizing c with
  | nil => exact h
  | cons a A ih => simpa using ih h.2

theorem chainGo_links {s : SL} {i : Nat} {p : Option Nat} {l : List Nat}
    (h : links s i p l) : ∀ f, l.length ≤ f → chainGo s i f p = l := by
  induction l generalizing p with
  | nil =>
    intro f _
    cases h
    cases f <;> rfl
  | cons j rest ih =>
    intro f hf
    cases f with
    | zero => simp at hf
    | succ f =>
      cases h.1
      simpa [chainGo] using ih h.2 f (by simpa using hf)

theorem links_unique {s : SL} {i : Nat} {p : Option Nat} {l₁ l₂ : List Nat}
    (h1 : links s i p l₁) (h2 : links s i p l₂) : l₁ = l₂ := by
  induction l₁ generalizing p l₂ with
  | nil =>
    cases h1
    cases l₂ with
    | nil => rfl
    | cons j rest => simp [links] at h2
  | cons j rest ih =>
    cases l₂ with
    | nil =>
      cases h2
      simp [links] at h1
    | cons j' rest' =>
      obtain ⟨hp1, h1'⟩ := h1
      obtain ⟨hp2, h2'⟩ := h2
      obtain rfl : j = j' := by rw [hp1] at hp2; exact Option.some_injective _ hp2
      rw [ih h1' h2']

theorem takeWhile_append_all {α : Type} (p : α → Bool) (B D : List α)
    (h : ∀ b ∈ B, p b = true) : (B ++ D).takeWhile p = B ++ D.takeWhile p := by
  induction B with
  | nil => rfl
  | cons b B ih =>
    have hb := h b (by simp)
    simp [List.takeWhile_cons, hb, ih fun b' hb' => h b' (by simp [hb'])]

theorem takeWhile_dropWhile_eq_nil {α : Type} (p : α → Bool) (l : List α) :
    (l.dropWhile p).takeWhile p = [] := by
  induction l with
  | nil => rfl
  | cons a l ih =>
    by_cases hp : p a = true
    · simpa [List.dropWhile_cons, hp] using ih
    · have hp' : p a = false := by simpa using hp
      simp [List.dropWhile_cons, hp', List.takeWhile_cons]

/-! ## Characterisation of the Go search loops -/

theorem walk_links {s : SL} {k : FKey} {i : Nat} {l : List Nat} :
    ∀ (c f : Nat), links s i (getNext s c i) l → l.length ≤ f →
    walk s k i f c = lastD (l.takeWhile fun j => flt (keyOf s j) k) c := by
  induction l with
  | nil =>
    intro c f h _
    have h' : getNext s c i = none := h
    cases f with
    | zero => rfl
    | succ f => simp [walk, h']
  | cons j rest ih =>
    intro c f h hf
    cases f with
    | zero => simp at hf
    | succ f =>
      obtain ⟨hp, hrest⟩ := h
      by_cases hj : flt (keyOf s j) k = true
      · have := ih j f hrest (by simpa using hf)
        simp [walk, hp, hj, List.takeWhile_cons, this]
      · have hj' : flt (keyOf s j) k = false := by simpa using hj
        simp [walk, hp, hj', List.takeWhile_cons]

theorem walk_mid {s : SL} {k : FKey} {i f : Nat} {ch : List Nat} {cur : Nat}
    (hlk : links s i (getNext s 0 i) ch)
    (hf : ch.length ≤ f)
    (hcur : cur = 0 ∨ cur ∈ ch.takeWhile fun j => flt (keyOf s j) k) :
    walk s k i f cur = lastD (ch.takeWhile fun j => flt (keyOf s j) k) 0 := by
  rcases hcur with rfl | hcur
  · exact walk_links 0 f hlk hf
  · obtain ⟨A, B, hT⟩ := List.append_of_mem hcur
    have hch : ch = (A ++ [cur]) ++ (B ++ ch.dropWhile fun j => flt (keyOf s j) k) := by
      conv_lhs => rw [← List.takeWhile_append_dropWhile (fun j => flt (keyOf s j) k) ch]
      rw [hT]
      simp
    have hlk2 : links s i (getNext s cur i)
        (B ++ ch.dropWhile fun j => flt (keyOf s j) k) := by
      have := links_drop (A := A ++ [cur])
        (B := B ++ ch.dropWhile fun j => flt (keyOf s j) k) (c := 0) (by rw [← hch]; exact hlk)
      simpa [lastD_append] using this
    have hlen : (B ++ ch.dropWhile fun j => flt (keyOf s j) k).length ≤ f := by
      have h1 := congrArg List.length hch
      simp only [List.length_append, List.length_cons, List.length_nil] at h1 ⊢
      omega
    have hw := walk_links (s := s) (k := k) (i := i) cur f hlk2 hlen
    have hBall : ∀ b ∈ B, flt (keyOf s b) k = true := by
      intro b hb
      have hbT : b ∈ ch.takeWhile fun j => flt (keyOf s j) k := by
        rw [hT]
        simp [hb]
      exact List.mem_takeWhile_imp (p := fun j => flt (keyOf s j) k) hbT
    rw [takeWhile_append_all _ _ _ hBall, takeWhile_dropWhile_eq_nil] at hw
    rw [hw, hT]
    simp [lastD_append]

theorem getD_set_self {α : Type} (l : List α) (i : Nat) (a d : α) (h : i < l.length) :
    (l.set i a).getD i d = a := by
  induction l generalizing i with
  | nil => simp at h
  | cons x l ih =>
    cases i with
    | zero => rfl
    | succ i => exact ih i (by simpa using h)

theorem getD_set_ne {α : Type} (l : List α) {i i' : Nat} (a d : α) (h : i ≠ i') :
    (l.set i a).getD i' d = l.getD i' d := by
  induction l generalizing i i' with
  | nil => rfl
  | cons x l ih =>
    cases i with
    | zero =>
      cases i' with
      | zero => exact absurd rfl h
      | succ i' => rfl
    | succ i =>
      cases i' with
      | zero => rfl
      | succ i' => exact ih fun he => h (by rw [he])

theorem getD_replicate {α : Type} (m i : Nat) (x d : α) :
    (List.replicate m x).getD i d = if i < m then x else d := by
  induction m generalizing i with
  | zero => simp
  | succ m ih =>
    cases i with
    | zero => simp [List.replicate]
    | succ i =>
      simp only [List.replicate, List.getD_cons_succ, ih]
      by_cases h : i < m <;> simp [h] <;> omega

/-! ## The structural invariant -/

/-- The level-`i` chain of a node list `L`: those nodes participating at
level index `i` (their `next` slice is longer than `i`), in order. -/
def chainL (s : SL) (L : List Nat) (i : Nat) : List Nat :=
  L.filter fun j => decide (i < partLv s j)

/-- The boolean test "node key is `< k`" driving the search loops. -/
def fltb (s : SL) (k : FKey) (j : Nat) : Bool := flt (keyOf s j) k

/-- The predecessor recorded by the mutation-mode search at level `i`:
the last node of the level-`i` chain with key `< k`, or the head `0`. -/
def predAt (s : SL) (L : List Nat) (k : FKey) (i : Nat) : Nat :=
  lastD ((chainL s L i).takeWhile (fltb s k)) 0

/-- The structural invariant tying a skip-list state `s` to the ordered list
`L` of its (level-0-reachable) real node ids. -/
structure SLInv (s : SL) (L : List Nat) : Prop where
  hhead : partLv s 0 = s.maxLevel
  hnn : 1 ≤ s.numNodes
  hml : 1 ≤ s.maxLevel
  hlev1 : 1 ≤ s.level
  hlevm : s.level ≤ s.maxLevel
  hupd : s.update.length = s.maxLevel
  hval : ∀ j ∈ L, 1 ≤ j ∧ j < s.numNodes
  hpos : ∀ j ∈ L, 1 ≤ partLv s j
  hcap : ∀ j ∈ L, partLv s j ≤ s.level
  htop : s.level = 1 ∨ ∃ j ∈ L, s.level ≤ partLv s j
  hnum : ∀ j ∈ L, keyOf s j ≠ FKey.nan
  hsort : L.Pairwise fun a b => flt (keyOf s a) (keyOf s b) = true
  hlinks : ∀ i, links s i (getNext s 0 i) (chainL s L i)
  hstale : ∀ i, s.level ≤ i → s.update.getD i none = none ∨ s.update.getD i none = some 0
  hlen : s.length = (L.length : Int)

theorem SLInv.nodupL {s : SL} {L : List Nat} (hI : SLInv s L) : L.Nodup :=
  nodup_of_pairwise_flt (keyOf s) L hI.hsort

theorem mem_chainL {s : SL} {L : List Nat} {i j : Nat} :
    j ∈ chainL s L i ↔ j ∈ L ∧ i < partLv s j := by
  simp [chainL]

theorem SLInv.chain_sorted {s : SL} {L : List Nat} (hI : SLInv s L) (i : Nat) :
    (chainL s L i).Pairwise fun a b => flt (keyOf s a) (keyOf s b) = true :=
  hI.hsort.filter _

theorem SLInv.chain_nodup {s : SL} {L : List Nat} (hI : SLInv s L) (i : Nat) :
    (chainL s L i).Nodup :=
  hI.nodupL.filter _

theorem SLInv.chain_len {s : SL} {L : List Nat} (hI : SLInv s L) (i : Nat) :
    (chainL s L i).length ≤ fuelOf s := by
  refine le_trans (length_le_of_nodup_lt _ s.numNodes (hI.chain_nodup i) ?_) (by simp [fuelOf])
  intro j hj
  exact (hI.hval j (mem_chainL.mp hj).1).2

theorem SLInv.chain_hi {s : SL} {L : List Nat} (hI : SLInv s L) {i : Nat}
    (h : s.level ≤ i) : chainL s L i = [] := by
  refine List.filter_eq_nil_iff.mpr fun j hj => ?_
  have := hI.hcap j hj
  simp only [decide_eq_true_eq]
  omega

theorem SLInv.headNext_hi {s : SL} {L : List Nat} (hI : SLInv s L) {i : Nat}
    (h : s.level ≤ i) : getNext s 0 i = none := by
  have := hI.hlinks i
  rw [hI.chain_hi h] at this
  exact this

/-- On a sorted chain the `takeWhile` by `< k` is the same as `filter`. -/
theorem SLInv.takeWhile_chain_eq_filter {s : SL} {L : List Nat} (hI : SLInv s L)
    (k : FKey) (i : Nat) :
    (chainL s L i).takeWhile (fltb s k) = (chainL s L i).filter (fltb s k) :=
  takeWhile_eq_filter _ (fltb s k)
    (fun a b hab hb => flt_trans hab hb) _ (hI.chain_sorted i)

theorem SLInv.mem_takeWhile_chain {s : SL} {L : List Nat} (hI : SLInv s L)
    {k : FKey} {i j : Nat} :
    j ∈ (chainL s L i).takeWhile (fltb s k) ↔
      j ∈ L ∧ i < partLv s j ∧ fltb s k j = true := by
  rw [hI.takeWhile_chain_eq_filter]
  simp [List.mem_filter, mem_chainL, and_assoc]

/-! ## Characterisation of `descend` -/

theorem descend_spec {s : SL} {L : List Nat} (hI : SLInv s L) (k : FKey) :
    ∀ (n : Nat), n ≤ s.level → ∀ (cur : Nat) (upd : List (Option Nat)),
    s.level ≤ upd.length →
    (cur = 0 ∨ cur ∈ (chainL s L n).takeWhile (fltb s k)) →
    (descend s k n cur upd).1 = (if n = 0 then cur else predAt s L k 0)
    ∧ (descend s k n cur upd).2.length = upd.length
    ∧ ∀ i, (descend s k n cur upd).2.getD i none =
        if i < n then some (predAt s L k i) else upd.getD i none := by
  intro n
  induction n with
  | zero =>
    intro _ cur upd _ _
    refine ⟨rfl, rfl, fun i => by simp [descend]⟩
  | succ m ih =>
    intro hn cur upd hupdlen hcur
    have hcur' : cur = 0 ∨ cur ∈ (chainL s L m).takeWhile (fltb s k) := by
      rcases hcur with rfl | hcur
      · exact Or.inl rfl
      · right
        have := (hI.mem_takeWhile_chain).mp hcur
        exact (hI.mem_takeWhile_chain).mpr ⟨this.1, by omega, this.2.2⟩
    have hwalk : walk s k m (fuelOf s) cur = predAt s L k m :=
      walk_mid (hI.hlinks m) (hI.chain_len m) hcur'
    have hcnext : predAt s L k m = 0 ∨
        predAt s L k m ∈ (chainL s L m).takeWhile (fltb s k) := by
      have := lastD_mem ((chainL s L m).takeWhile (fltb s k)) 0
      rcases List.mem_cons.mp this with h | h
      · exact Or.inl h
      · exact Or.inr h
    have hrec := ih (by omega) (predAt s L k m)
      (upd.set m (some (predAt s L k m)))
      (by rw [List.length_set]; exact hupdlen) hcnext
    have hstep : descend s k (m + 1) cur upd =
        descend s k m (predAt s L k m) (upd.set m (some (predAt s L k m))) := by
      simp [descend, hwalk]
    rw [hstep]
    refine ⟨?_, ?_, ?_⟩
    · rw [hrec.1]
      by_cases hm : m = 0 <;> simp [hm]
    · rw [hrec.2.1, List.length_set]
    · intro i
      rw [hrec.2.2 i]
      by_cases h1 : i < m
      · simp [h1, (by omega : i < m + 1)]
      · by_cases h2 : i = m
        · subst h2
          simp only [h1, if_false, (by omega : i < i + 1), if_true]
          exact getD_set_self upd i _ none (by omega)
        · have h3 : ¬ i < m + 1 := by omega
          simp only [h1, if_false, h3, if_false]
          exact getD_set_ne upd _ none (fun he => h2 he.symm)

/-! ## Successor of the recorded predecessor; the found node -/

theorem links_after_pred {s : SL} {L : List Nat} (hI : SLInv s L) (k : FKey) (i : Nat) :
    links s i (getNext s (predAt s L k i) i)
      ((chainL s L i).dropWhile (fltb s k)) := by
  have h := hI.hlinks i
  rw [← List.takeWhile_append_dropWhile (fltb s k) (chainL s L i)] at h
  exact links_drop (c := 0) h

/-- The node the search finds for key `k`: the first node at level 0 past all
keys `< k`, if its key compares `==` to `k`. -/
def foundIdx (s : SL) (L : List Nat) (k : FKey) : Option Nat :=
  match (chainL s L 0).dropWhile (fltb s k) with
  | [] => none
  | d :: _ => if feq (keyOf s d) k then some d else none

theorem chainL0_eq {s : SL} {L : List Nat} (hI : SLInv s L) : chainL s L 0 = L := by
  refine List.filter_eq_self.mpr fun j hj => ?_
  have := hI.hpos j hj
  simp only [decide_eq_true_eq]
  omega

theorem getNext_pred0 {s : SL} {L : List Nat} (hI : SLInv s L) (k : FKey) :
    getNext s (predAt s L k 0) 0 =
      ((chainL s L 0).dropWhile (fltb s k)).head? := by
  have h := links_after_pred hI k 0
  cases hD : (chainL s L 0).dropWhile (fltb s k) with
  | nil => rw [hD] at h; exact h
  | cons d rest => rw [hD] at h; simp [h.1]

theorem descend_top {s : SL} {L : List Nat} (hI : SLInv s L) (k : FKey) :
    (descend s k s.level 0 s.update).1 = predAt s L k 0
    ∧ (descend s k s.level 0 s.update).2.length = s.maxLevel
    ∧ ∀ i, (descend s k s.level 0 s.update).2.getD i none =
        if i < s.level then some (predAt s L k i) else s.update.getD i none := by
  have h := descend_spec hI k s.level le_rfl 0 s.update
    (by rw [hI.hupd]; exact hI.hlevm) (Or.inl rfl)
  have hne : ¬ s.level = 0 := by have := hI.hlev1; omega
  refine ⟨by rw [h.1]; simp [hne], by rw [h.2.1, hI.hupd], h.2.2⟩

theorem descendRO_eq {s : SL} {k : FKey} :
    ∀ (n cur : Nat) (upd : List (Option Nat)),
    descendRO s k n cur = (descend s k n cur upd).1 := by
  intro n
  induction n with
  | zero => intro cur upd; rfl
  | succ m ih =>
    intro cur upd
    simp only [descendRO, descend]
    exact ih _ _

theorem search_spec {s : SL} {L : List Nat} (hI : SLInv s L) (k : FKey) :
    s.Search k = (foundIdx s L k).map fun j => (s.node j).value := by
  have hcur : descendRO s k s.level 0 = predAt s L k 0 := by
    rw [descendRO_eq s.level 0 s.update]
    exact (descend_top hI k).1
  show (match getNext s (descendRO s k s.level 0) 0 with
    | some j => if feq (keyOf s j) k then some (s.node j).value else none
    | none => none) = _
  rw [hcur, getNext_pred0 hI k]
  unfold foundIdx
  cases hD : (chainL s L 0).dropWhile (fltb s k) with
  | nil => simp
  | cons d rest =>
    by_cases hf : feq (keyOf s d) k = true
    · simp [hf]
    · have hf' : feq (keyOf s d) k = false := by simpa using hf
      simp [hf']

theorem dropWhile_sorted {s : SL} {L : List Nat} (hI : SLInv s L) (k : FKey) (i : Nat) :
    ((chainL s L i).dropWhile (fltb s k)).Pairwise
      fun a b => flt (keyOf s a) (keyOf s b) = true :=
  (hI.chain_sorted i).sublist (List.dropWhile_sublist _)

theorem dropWhile_not_flt {s : SL} {L : List Nat} (hI : SLInv s L) (k : FKey) (i : Nat) :
    ∀ j ∈ (chainL s L i).dropWhile (fltb s k), fltb s k j = false :=
  dropWhile_forall_not _ (fltb s k) (fun a b hab hb => flt_trans hab hb)
    _ (hI.chain_sorted i)

theorem foundIdx_some {s : SL} {L : List Nat} (hI : SLInv s L) {k : FKey} {j : Nat}
    (h : foundIdx s L k = some j) : j ∈ L ∧ feq (keyOf s j) k = true := by
  unfold foundIdx at h
  cases hD : (chainL s L 0).dropWhile (fltb s k) with
  | nil => rw [hD] at h; simp at h
  | cons d rest =>
    rw [hD] at h
    by_cases hf : feq (keyOf s d) k = true
    · simp only [hf, if_true] at h
      obtain rfl : d = j := by simpa using h
      refine ⟨?_, hf⟩
      have : d ∈ chainL s L 0 := (List.dropWhile_sublist _).mem (by rw [hD]; simp)
      rw [chainL0_eq hI] at this
      exact this
    · simp only [hf, if_false] at h
      exact absurd h (by simp)

theorem foundIdx_none {s : SL} {L : List Nat} (hI : SLInv s L) {k : FKey}
    (h : foundIdx s L k = none) : ∀ j ∈ L, feq (keyOf s j) k = false := by
  intro j hj
  by_contra hne
  have hfeq : feq (keyOf s j) k = true := by simpa using hne
  have hjc : j ∈ chainL s L 0 := by rw [chainL0_eq hI]; exact hj
  rw [← List.takeWhile_append_dropWhile (fltb s k) (chainL s L 0)] at hjc
  rcases List.mem_append.mp hjc with hjT | hjD
  · have := List.mem_takeWhile_imp (p := fltb s k) hjT
    rw [fltb, feq_not_flt hfeq] at this
    simp at this
  · unfold foundIdx at h
    cases hD : (chainL s L 0).dropWhile (fltb s k) with
    | nil => rw [hD] at hjD; simp at hjD
    | cons d rest =>
      rw [hD] at h hjD
      rcases List.mem_cons.mp hjD with rfl | hjrest
      · simp only [hfeq, if_true] at h
        exact absurd h (by simp)
      · have hsort := dropWhile_sorted hI k 0
        rw [hD] at hsort
        have hdj : flt (keyOf s d) (keyOf s j) = true :=
          (List.pairwise_cons.mp hsort).1 j hjrest
        have hnd := dropWhile_not_flt hI k 0 d (by rw [hD]; simp)
        rw [fltb] at hnd
        rw [feq_flt_congr hfeq] at hdj
        rw [hdj] at hnd
        simp at hnd

theorem chainList_eq_chainL {s : SL} {L : List Nat} (hI : SLInv s L) (i : Nat) :
    chainList s i = chainL s L i :=
  chainGo_links (hI.hlinks i) _ (hI.chain_len i)

theorem containsKey_iff {s : SL} {L : List Nat} (hI : SLInv s L) (k : FKey) :
    containsKey s k = true ↔ ∃ j ∈ L, feq (keyOf s j) k = true := by
  unfold containsKey
  rw [chainList_eq_chainL hI 0, chainL0_eq hI]
  simp [List.any_eq_true]

theorem containsKey_iff_foundIdx {s : SL} {L : List Nat} (hI : SLInv s L) (k : FKey) :
    containsKey s k = true ↔ (foundIdx s L k).isSome := by
  rw [containsKey_iff hI]
  constructor
  · rintro ⟨j, hj, hfeq⟩
    cases hF : foundIdx s L k with
    | some d => simp
    | none => rw [foundIdx_none hI hF j hj] at hfeq; exact absurd hfeq (by simp)
  · intro h
    cases hF : foundIdx s L k with
    | none => rw [hF] at h; simp at h
    | some d =>
      obtain ⟨hd, hfeq⟩ := foundIdx_some hI hF
      exact ⟨d, hd, hfeq⟩

/-! ## Heap mutation lemmas -/

theorem node_setNext_ne {s : SL} {j j' i : Nat} {p : Option Nat} (h : j' ≠ j) :
    (setNext s j i p).node j' = s.node j' := by
  simp [setNext, h]

theorem keyOf_setNext (s : SL) (j i : Nat) (p : Option Nat) (j' : Nat) :
    keyOf (setNext s j i p) j' = keyOf s j' := by
  by_cases h : j' = j
  · subst h; simp [keyOf, setNext]
  · simp [keyOf, node_setNext_ne h]

theorem value_setNext (s : SL) (j i : Nat) (p : Option Nat) (j' : Nat) :
    ((setNext s j i p).node j').value = (s.node j').value := by
  by_cases h : j' = j
  · subst h; simp [setNext]
  · simp [node_setNext_ne h]

theorem partLv_setNext (s : SL) (j i : Nat) (p : Option Nat) (j' : Nat) :
    partLv (setNext s j i p) j' = partLv s j' := by
  by_cases h : j' = j
  · subst h; simp [partLv, setNext]
  · simp [partLv, node_setNext_ne h]

theorem getNext_setNext_ne {s : SL} {j j' i i' : Nat} {p : Option Nat}
    (h : j' ≠ j ∨ i' ≠ i) :
    getNext (setNext s j i p) j' i' = getNext s j' i' := by
  rcases h with h | h
  · simp [getNext, node_setNext_ne h]
  · by_cases hj : j' = j
    · subst hj
      simp only [getNext, setNext, if_pos rfl]
      exact getD_set_ne _ _ _ fun he => h (by rw [he])
    · simp [getNext, node_setNext_ne hj]

theorem getNext_setNext_self {s : SL} {j i : Nat} {p : Option Nat}
    (h : i < partLv s j) :
    getNext (setNext s j i p) j i = p := by
  simp only [getNext, setNext, if_pos rfl]
  exact getD_set_self _ _ _ _ h

theorem setNext_fields (s : SL) (j i : Nat) (p : Option Nat) :
    (setNext s j i p).update = s.update ∧ (setNext s j i p).numNodes = s.numNodes
    ∧ (setNext s j i p).maxLevel = s.maxLevel ∧ (setNext s j i p).level = s.level
    ∧ (setNext s j i p).length = s.length := by
  simp [setNext]

/-! ## The splice-loop formula -/

/-- The node actually used as predecessor at level `i` during the splice:
`update[i]` when non-nil, else the head. -/
def effUpd (upd : List (Option Nat)) (i : Nat) : Nat := (upd.getD i none).getD 0

theorem spliceLevels_succ_none {upd : List (Option Nat)} {c : Nat}
    (nid : Nat) (s : SL) (h : upd.getD c none = none) :
    spliceLevels nid upd (c + 1) s = spliceLevels nid upd c (setNext s 0 c (some nid)) := by
  show spliceLevels nid upd c _ = _
  rw [h]

theorem spliceLevels_succ_some {upd : List (Option Nat)} {c p : Nat}
    (nid : Nat) (s : SL) (h : upd.getD c none = some p) :
    spliceLevels nid upd (c + 1) s =
      spliceLevels nid upd c (setNext (setNext s nid c (getNext s p c)) p c (some nid)) := by
  show spliceLevels nid upd c _ = _
  rw [h]

theorem spliceLevels_keyOf (nid : Nat) (upd : List (Option Nat)) :
    ∀ (c : Nat) (s : SL) (j : Nat), keyOf (spliceLevels nid upd c s) j = keyOf s j := by
  intro c
  induction c with
  | zero => intro s j; rfl
  | succ c ih =>
    intro s j
    cases hu : upd.getD c none with
    | none => rw [spliceLevels_succ_none nid s hu, ih, keyOf_setNext]
    | some p => rw [spliceLevels_succ_some nid s hu, ih, keyOf_setNext, keyOf_setNext]

theorem spliceLevels_value (nid : Nat) (upd : List (Option Nat)) :
    ∀ (c : Nat) (s : SL) (j : Nat),
    ((spliceLevels nid upd c s).node j).value = (s.node j).value := by
  intro c
  induction c with
  | zero => intro s j; rfl
  | succ c ih =>
    intro s j
    cases hu : upd.getD c none with
    | none => rw [spliceLevels_succ_none nid s hu, ih, value_setNext]
    | some p => rw [spliceLevels_succ_some nid s hu, ih, value_setNext, value_setNext]

theorem spliceLevels_partLv (nid : Nat) (upd : List (Option Nat)) :
    ∀ (c : Nat) (s : SL) (j : Nat), partLv (spliceLevels nid upd c s) j = partLv s j := by
  intro c
  induction c with
  | zero => intro s j; rfl
  | succ c ih =>
    intro s j
    cases hu : upd.getD c none with
    | none => rw [spliceLevels_succ_none nid s hu, ih, partLv_setNext]
    | some p => rw [spliceLevels_succ_some nid s hu, ih, partLv_setNext, partLv_setNext]

theorem spliceLevels_fields (nid : Nat) (upd : List (Option Nat)) :
    ∀ (c : Nat) (s : SL),
    (spliceLevels nid upd c s).update = s.update
    ∧ (spliceLevels nid upd c s).numNodes = s.numNodes
    ∧ (spliceLevels nid upd c s).maxLevel = s.maxLevel
    ∧ (spliceLevels nid upd c s).level = s.level
    ∧ (spliceLevels nid upd c s).length = s.length := by
  intro c
  induction c with
  | zero => intro s; exact ⟨rfl, rfl, rfl, rfl, rfl⟩
  | succ c ih =>
    intro s
    cases hu : upd.getD c none with
    | none =>
      rw [spliceLevels_succ_none nid s hu]
      obtain ⟨h1, h2, h3, h4, h5⟩ := ih (setNext s 0 c (some nid))
      exact ⟨by rw [h1]; rfl, by rw [h2]; rfl, by rw [h3]; rfl, by rw [h4]; rfl,
        by rw [h5]; rfl⟩
    | some p =>
      rw [spliceLevels_succ_some nid s hu]
      obtain ⟨h1, h2, h3, h4, h5⟩ := ih (setNext (setNext s nid c (getNext s p c)) p c (some nid))
      exact ⟨by rw [h1]; rfl, by rw [h2]; rfl, by rw [h3]; rfl, by rw [h4]; rfl,
        by rw [h5]; rfl⟩

theorem spliceLevels_getNext_ge (nid : Nat) (upd : List (Option Nat)) :
    ∀ (c : Nat) (s : SL) (j i : Nat), c ≤ i →
    getNext (spliceLevels nid upd c s) j i = getNext s j i := by
  intro c
  induction c with
  | zero => intro s j i _; rfl
  | succ c ih =>
    intro s j i hi
    cases hu : upd.getD c none with
    | none =>
      rw [spliceLevels_succ_none nid s hu, ih _ j i (by omega)]
      exact getNext_setNext_ne (Or.inr (by omega))
    | some p =>
      rw [spliceLevels_succ_some nid s hu, ih _ j i (by omega)]
      rw [getNext_setNext_ne (Or.inr (by omega)), getNext_setNext_ne (Or.inr (by omega))]

theorem spliceLevels_getNext_lt (nid : Nat) (upd : List (Option Nat)) :
    ∀ (c : Nat) (s : SL),
    (∀ i, i < c → effUpd upd i ≠ nid) →
    (∀ i, i < c → i < partLv s (effUpd upd i)) →
    (∀ i, i < c → upd.getD i none = none → getNext s 0 i = none) →
    (∀ i, i < c → getNext s nid i = none) →
    c ≤ partLv s nid →
    ∀ i, i < c → ∀ j,
    getNext (spliceLevels nid upd c s) j i =
      (if j = effUpd upd i then some nid
       else if j = nid then getNext s (effUpd upd i) i
       else getNext s j i) := by
  intro c
  induction c with
  | zero => intro s _ _ _ _ _ i hi; omega
  | succ c ih =>
    intro s hnid hpart hnil hfresh hnp i hi j
    by_cases hic : i < c
    · cases hu : upd.getD c none with
      | none =>
        rw [spliceLevels_succ_none nid s hu]
        have hag : ∀ j' i', i' < c →
            getNext (setNext s 0 c (some nid)) j' i' = getNext s j' i' :=
          fun j' i' hi' => getNext_setNext_ne (Or.inr (by omega))
        rw [ih (setNext s 0 c (some nid)) (fun i' h => hnid i' (by omega))
          (fun i' h => by rw [partLv_setNext]; exact hpart i' (by omega))
          (fun i' h hn => by rw [hag 0 i' h]; exact hnil i' (by omega) hn)
          (fun i' h => by rw [hag nid i' h]; exact hfresh i' (by omega))
          (by rw [partLv_setNext]; omega) i hic j]
        rw [hag j i hic, hag (effUpd upd i) i hic]
      | some p =>
        rw [spliceLevels_succ_some nid s hu]
        have hag : ∀ j' i', i' < c →
            getNext (setNext (setNext s nid c (getNext s p c)) p c (some nid)) j' i'
              = getNext s j' i' := by
          intro j' i' hi'
          rw [getNext_setNext_ne (Or.inr (by omega)), getNext_setNext_ne (Or.inr (by omega))]
        rw [ih (setNext (setNext s nid c (getNext s p c)) p c (some nid))
          (fun i' h => hnid i' (by omega))
          (fun i' h => by rw [partLv_setNext, partLv_setNext]; exact hpart i' (by omega))
          (fun i' h hn => by rw [hag 0 i' h]; exact hnil i' (by omega) hn)
          (fun i' h => by rw [hag nid i' h]; exact hfresh i' (by omega))
          (by rw [partLv_setNext, partLv_setNext]; omega) i hic j]
        rw [hag j i hic, hag (effUpd upd i) i hic]
    · obtain rfl : i = c := by omega
      cases hu : upd.getD i none with
      | none =>
        have heff : effUpd upd i = 0 := by unfold effUpd; rw [hu]; rfl
        rw [spliceLevels_succ_none nid s hu,
          spliceLevels_getNext_ge nid upd i _ j i le_rfl]
        by_cases hj0 : j = 0
        · subst hj0
          rw [heff, if_pos rfl]
          exact getNext_setNext_self (by have := hpart i hi; rwa [heff] at this)
        · rw [heff, if_neg hj0]
          by_cases hjn : j = nid
          · rw [if_pos hjn, getNext_setNext_ne (Or.inl hj0), hjn, hfresh i hi, hnil i hi hu]
          · rw [if_neg hjn, getNext_setNext_ne (Or.inl hj0)]
      | some p =>
        have heff : effUpd upd i = p := by unfold effUpd; rw [hu]; rfl
        rw [spliceLevels_succ_some nid s hu,
          spliceLevels_getNext_ge nid upd i _ j i le_rfl]
        have hpn : p ≠ nid := by rw [← heff]; exact hnid i hi
        by_cases hjp : j = p
        · subst hjp
          rw [heff, if_pos rfl, getNext_setNext_self]
          rw [partLv_setNext]
          have := hpart i hi
          rwa [heff] at this
        · by_cases hjn : j = nid
          · rw [heff, if_neg hjp, if_pos hjn, getNext_setNext_ne (Or.inl hjp), hjn]
            exact getNext_setNext_self (by omega)
          · rw [heff, if_neg hjp, if_neg hjn]
            rw [getNext_setNext_ne (Or.inl hjp), getNext_setNext_ne (Or.inl hjn)]

/-! ## Relinking lemmas -/

theorem links_insert (s s' : SL) (i nid p : Nat)
    (hform : ∀ j, getNext s' j i =
       if j = p then some nid
       else if j = nid then getNext s p i
       else getNext s j i) :
    ∀ (A B : List Nat) (c : Nat),
    links s i (getNext s c i) (A ++ B) →
    p = lastD A c →
    (A ++ B).Nodup →
    c ∉ A ++ B →
    nid ∉ A ++ B →
    c ≠ nid →
    p ≠ nid →
    links s' i (getNext s' c i) (A ++ nid :: B) := by
  intro A
  induction A with
  | nil =>
    intro B c hlk hp hnd hc hn hcn hpn
    rw [lastD_nil] at hp
    have hc' : getNext s' c i = some nid := by
      rw [hform c, if_pos hp.symm]
    refine ⟨hc', ?_⟩
    have hnid' : getNext s' nid i = getNext s c i := by
      rw [hform nid, if_neg (fun h => hpn h.symm), if_pos rfl, hp]
    rw [hnid']
    refine links_congr hlk fun j hj => ?_
    have hjB : j ∈ B := by simpa using hj
    rw [hform j, if_neg ?_, if_neg ?_]
    · intro h
      rw [h] at hjB
      exact hn (by simpa using hjB)
    · intro h
      rw [h, hp] at hjB
      exact hc (by simpa using hjB)
  | cons a A ih =>
    intro B c hlk hp hnd hc hn hcn hpn
    rw [lastD_cons] at hp
    obtain ⟨ha, hrest⟩ := hlk
    have hpm : p ∈ a :: A := by rw [hp]; exact lastD_mem A a
    have hcp : c ≠ p := by
      intro h
      rw [← h] at hpm
      rcases List.mem_cons.mp hpm with h2 | h2
      · exact hc (by simp [h2])
      · exact hc (by simp [h2])
    have hc' : getNext s' c i = some a := by
      rw [hform c, if_neg hcp, if_neg hcn, ha]
    refine ⟨hc', ?_⟩
    refine ih B a hrest hp ?_ ?_ ?_ ?_ hpn
    · exact (List.nodup_cons.mp (by simpa using hnd)).2
    · exact (List.nodup_cons.mp (by simpa using hnd)).1
    · intro h
      exact hn (by simpa using Or.inr h)
    · intro h
      exact hn (by simp [← h])

theorem links_delete (s s' : SL) (i p jdel : Nat)
    (hform : ∀ j, getNext s' j i =
       if j = p then getNext s jdel i else getNext s j i) :
    ∀ (A B : List Nat) (c : Nat),
    links s i (getNext s c i) (A ++ jdel :: B) →
    p = lastD A c →
    (c :: (A ++ jdel :: B)).Nodup →
    links s' i (getNext s' c i) (A ++ B) := by
  intro A
  induction A with
  | nil =>
    intro B c hlk hp hnd
    rw [lastD_nil] at hp
    obtain ⟨h1, h2⟩ := hlk
    have hc' : getNext s' c i = getNext s jdel i := by
      rw [hform c, if_pos hp.symm]
    rw [List.nil_append, hc']
    refine links_congr h2 fun j hj => ?_
    have hcj : j ≠ p := by
      rw [hp]
      intro h
      have hcm := (List.nodup_cons.mp hnd).1
      exact hcm (by rw [← h]; simp [hj])
    rw [hform j, if_neg hcj]
  | cons a A ih =>
    intro B c hlk hp hnd
    rw [lastD_cons] at hp
    obtain ⟨ha, hrest⟩ := hlk
    have hpm : p ∈ a :: A := by rw [hp]; exact lastD_mem A a
    have hcp : c ≠ p := by
      intro h
      have hcm := (List.nodup_cons.mp hnd).1
      rw [← h] at hpm
      rcases List.mem_cons.mp hpm with h2 | h2
      · exact hcm (by simp [h2])
      · exact hcm (by simp [h2])
    have hc' : getNext s' c i = some a := by
      rw [hform c, if_neg hcp, ha]
    refine ⟨hc', ?_⟩
    refine ih B a hrest hp ?_
    have h1 := (List.nodup_cons.mp hnd).2
    simpa using h1

/-! ## Commuting chains with the key split -/

theorem dropWhile_eq_filter_not {α : Type} (R : α → α → Prop) (p : α → Bool)
    (hdc : ∀ a b, R a b → p b = true → p a = true) :
    ∀ l : List α, l.Pairwise R → l.dropWhile p = l.filter (fun a => ! p a) := by
  intro l hl
  induction l with
  | nil => rfl
  | cons a l ih =>
    rcases List.pairwise_cons.mp hl with ⟨hab, htl⟩
    by_cases hpa : p a = true
    · simp [List.dropWhile_cons, hpa, ih htl]
    · have hpa' : p a = false := by simpa using hpa
      have hall : l.filter (fun a => ! p a) = l := by
        refine List.filter_eq_self.mpr fun b hb => ?_
        have : p b = false := by
          by_contra hc
          exact hpa (hdc a b (hab b hb) (by simpa using hc))
        simp [this]
      simp [List.dropWhile_cons, hpa', hall]

theorem filter_swap {α : Type} (p q : α → Bool) (l : List α) :
    (l.filter p).filter q = (l.filter q).filter p := by
  rw [List.filter_filter, List.filter_filter]
  exact List.filter_congr fun a _ => by cases hp : p a <;> cases hq : q a <;> simp [hp, hq]

theorem sortKey_dc {s : SL} {k : FKey} :
    ∀ a b, (flt (keyOf s a) (keyOf s b) = true) → fltb s k b = true → fltb s k a = true :=
  fun _ _ hab hb => flt_trans hab hb

theorem takeWhile_L_eq_filter {s : SL} {L : List Nat} (hI : SLInv s L) (k : FKey) :
    L.takeWhile (fltb s k) = L.filter (fltb s k) :=
  takeWhile_eq_filter _ (fltb s k) sortKey_dc L hI.hsort

theorem dropWhile_L_eq_filter {s : SL} {L : List Nat} (hI : SLInv s L) (k : FKey) :
    L.dropWhile (fltb s k) = L.filter (fun j => ! fltb s k j) :=
  dropWhile_eq_filter_not _ (fltb s k) sortKey_dc L hI.hsort

theorem takeWhile_chain_comm {s : SL} {L : List Nat} (hI : SLInv s L) (k : FKey) (i : Nat) :
    (chainL s L i).takeWhile (fltb s k)
      = (L.takeWhile (fltb s k)).filter (fun j => decide (i < partLv s j)) := by
  rw [hI.takeWhile_chain_eq_filter k i, takeWhile_L_eq_filter hI k]
  unfold chainL
  rw [filter_swap]

theorem dropWhile_chain_comm {s : SL} {L : List Nat} (hI : SLInv s L) (k : FKey) (i : Nat) :
    (chainL s L i).dropWhile (fltb s k)
      = (L.dropWhile (fltb s k)).filter (fun j => decide (i < partLv s j)) := by
  rw [dropWhile_eq_filter_not _ (fltb s k) sortKey_dc _ (hI.chain_sorted i),
    dropWhile_L_eq_filter hI k]
  unfold chainL
  rw [filter_swap]

/-! ## The shape of `Insert` -/

/-- The `update` table as left behind by the mutation-mode search. -/
def insUpd (s : SL) (k : FKey) : List (Option Nat) := (descend s k s.level 0 s.update).2

/-- The state right after allocating the fresh node, before splicing. -/
def insMid (s : SL) (k : FKey) (v : Int) (lvl : Nat) : SL :=
  { s with
      update := insUpd s k
      numNodes := s.numNodes + 1
      node := fun j' => if j' = s.numNodes then
          { next := List.replicate lvl none, key := k, value := v } else s.node j' }

/-- The final state of an `Insert` that created a new node. -/
def insFin (s : SL) (k : FKey) (v : Int) (lvl : Nat) : SL :=
  { spliceLevels s.numNodes (insUpd s k) lvl (insMid s k v lvl) with
      level := if lvl > s.level then lvl else s.level
      length := s.length + 1 }

theorem dup_eq_foundIdx {s : SL} {L : List Nat} (hI : SLInv s L) (k : FKey) :
    (match getNext s (descend s k s.level 0 s.update).1 0 with
     | some jj => if feq (keyOf s jj) k then some jj else none
     | none => none) = foundIdx s L k := by
  rw [(descend_top hI k).1, getNext_pred0 hI k]
  unfold foundIdx
  cases hD : (chainL s L 0).dropWhile (fltb s k) with
  | nil => rfl
  | cons d rest => rfl

theorem insert_found_eq {s : SL} {L : List Nat} {k : FKey} (hI : SLInv s L) {j : Nat}
    (hf : foundIdx s L k = some j) (v : Int) (lvl : Nat) :
    s.Insert k v lvl =
      { s with
          update := insUpd s k
          node := fun j' => if j' = j then { s.node j with value := v } else s.node j' } := by
  show (match (match getNext s (descend s k s.level 0 s.update).1 0 with
     | some jj => if feq (keyOf s jj) k then some jj else none
     | none => none) with
    | some j => { s with
        update := (descend s k s.level 0 s.update).2
        node := fun j' => if j' = j then { s.node j with value := v } else s.node j' }
    | none => insFin s k v lvl) = _
  rw [dup_eq_foundIdx hI k, hf]
  rfl

theorem insert_new_eq {s : SL} {L : List Nat} {k : FKey} (hI : SLInv s L)
    (hf : foundIdx s L k = none) (v : Int) (lvl : Nat) :
    s.Insert k v lvl = insFin s k v lvl := by
  show (match (match getNext s (descend s k s.level 0 s.update).1 0 with
     | some jj => if feq (keyOf s jj) k then some jj else none
     | none => none) with
    | some j => { s with
        update := (descend s k s.level 0 s.update).2
        node := fun j' => if j' = j then { s.node j with value := v } else s.node j' }
    | none => insFin s k v lvl) = _
  rw [dup_eq_foundIdx hI k, hf]

theorem insMid_getNext (s : SL) (k : FKey) (v : Int) (lvl : Nat) (j i : Nat) :
    getNext (insMid s k v lvl) j i = if j = s.numNodes then none else getNext s j i := by
  unfold insMid getNext
  by_cases h : j = s.numNodes
  · simp [h, getD_replicate]
  · simp [h]

theorem insMid_keyOf (s : SL) (k : FKey) (v : Int) (lvl : Nat) (j : Nat) :
    keyOf (insMid s k v lvl) j = if j = s.numNodes then k else keyOf s j := by
  unfold insMid keyOf
  by_cases h : j = s.numNodes <;> simp [h]

theorem insMid_partLv (s : SL) (k : FKey) (v : Int) (lvl : Nat) (j : Nat) :
    partLv (insMid s k v lvl) j = if j = s.numNodes then lvl else partLv s j := by
  unfold insMid partLv
  by_cases h : j = s.numNodes <;> simp [h]

theorem insMid_value (s : SL) (k : FKey) (v : Int) (lvl : Nat) (j : Nat) :
    ((insMid s k v lvl).node j).value = if j = s.numNodes then v else (s.node j).value := by
  unfold insMid
  by_cases h : j = s.numNodes <;> simp [h]

theorem insUpd_getD {s : SL} {L : List Nat} (hI : SLInv s L) (k : FKey) (i : Nat) :
    (insUpd s k).getD i none =
      if i < s.level then some (predAt s L k i) else s.update.getD i none :=
  (descend_top hI k).2.2 i

theorem insUpd_length {s : SL} {L : List Nat} (hI : SLInv s L) (k : FKey) :
    (insUpd s k).length = s.maxLevel :=
  (descend_top hI k).2.1

theorem predAt_hi {s : SL} {L : List Nat} (hI : SLInv s L) {k : FKey} {i : Nat}
    (h : s.level ≤ i) : predAt s L k i = 0 := by
  unfold predAt
  rw [hI.chain_hi h]
  rfl

theorem effUpd_insUpd {s : SL} {L : List Nat} (hI : SLInv s L) (k : FKey) (i : Nat) :
    effUpd (insUpd s k) i = predAt s L k i := by
  unfold effUpd
  rw [insUpd_getD hI k i]
  by_cases h : i < s.level
  · rw [if_pos h]; rfl
  · rw [if_neg h, predAt_hi hI (by omega)]
    rcases hI.hstale i (by omega) with hs | hs
    · rw [hs]; rfl
    · rw [hs]; rfl

theorem predAt_cases {s : SL} {L : List Nat} (hI : SLInv s L) (k : FKey) (i : Nat) :
    predAt s L k i = 0 ∨ (predAt s L k i ∈ L ∧ i < partLv s (predAt s L k i)
      ∧ fltb s k (predAt s L k i) = true) := by
  unfold predAt
  have := lastD_mem ((chainL s L i).takeWhile (fltb s k)) 0
  rcases List.mem_cons.mp this with h | h
  · exact Or.inl h
  · exact Or.inr (hI.mem_takeWhile_chain.mp h)

theorem predAt_part {s : SL} {L : List Nat} (hI : SLInv s L) (k : FKey) {i : Nat}
    (h : i < s.maxLevel) : i < partLv s (predAt s L k i) := by
  rcases predAt_cases hI k i with h0 | ⟨_, hp, _⟩
  · rw [h0, hI.hhead]; exact h
  · exact hp

theorem predAt_lt_numNodes {s : SL} {L : List Nat} (hI : SLInv s L) (k : FKey) (i : Nat) :
    predAt s L k i < s.numNodes := by
  rcases predAt_cases hI k i with h0 | ⟨hm, _, _⟩
  · rw [h0]; exact hI.hnn
  · exact (hI.hval _ hm).2

theorem insFin_getNext_eq_splice (s : SL) (k : FKey) (v : Int) (lvl j i : Nat) :
    getNext (insFin s k v lvl) j i
      = getNext (spliceLevels s.numNodes (insUpd s k) lvl (insMid s k v lvl)) j i := rfl

theorem insFin_keyOf (s : SL) (k : FKey) (v : Int) (lvl j : Nat) :
    keyOf (insFin s k v lvl) j = if j = s.numNodes then k else keyOf s j := by
  show keyOf (spliceLevels s.numNodes (insUpd s k) lvl (insMid s k v lvl)) j = _
  rw [spliceLevels_keyOf, insMid_keyOf]

theorem insFin_partLv (s : SL) (k : FKey) (v : Int) (lvl j : Nat) :
    partLv (insFin s k v lvl) j = if j = s.numNodes then lvl else partLv s j := by
  show partLv (spliceLevels s.numNodes (insUpd s k) lvl (insMid s k v lvl)) j = _
  rw [spliceLevels_partLv, insMid_partLv]

theorem insFin_value (s : SL) (k : FKey) (v : Int) (lvl j : Nat) :
    ((insFin s k v lvl).node j).value
      = if j = s.numNodes then v else (s.node j).value := by
  show ((spliceLevels s.numNodes (insUpd s k) lvl (insMid s k v lvl)).node j).value = _
  rw [spliceLevels_value, insMid_value]

theorem insFin_fields (s : SL) (k : FKey) (v : Int) (lvl : Nat) :
    (insFin s k v lvl).level = (if lvl > s.level then lvl else s.level)
    ∧ (insFin s k v lvl).length = s.length + 1
    ∧ (insFin s k v lvl).numNodes = s.numNodes + 1
    ∧ (insFin s k v lvl).maxLevel = s.maxLevel
    ∧ (insFin s k v lvl).update = insUpd s k := by
  refine ⟨rfl, rfl, ?_, ?_, ?_⟩
  · show (spliceLevels s.numNodes (insUpd s k) lvl (insMid s k v lvl)).numNodes = _
    rw [(spliceLevels_fields _ _ _ _).2.1]
    rfl
  · show (spliceLevels s.numNodes (insUpd s k) lvl (insMid s k v lvl)).maxLevel = _
    rw [(spliceLevels_fields _ _ _ _).2.2.1]
    rfl
  · show (spliceLevels s.numNodes (insUpd s k) lvl (insMid s k v lvl)).update = _
    rw [(spliceLevels_fields _ _ _ _).1]
    rfl

theorem insFin_getNext_lt {s : SL} {L : List Nat} (hI : SLInv s L) (k : FKey)
    (v : Int) {lvl : Nat} (hlm : lvl ≤ s.maxLevel) :
    ∀ i, i < lvl → ∀ j,
    getNext (insFin s k v lvl) j i =
      (if j = predAt s L k i then some s.numNodes
       else if j = s.numNodes then getNext s (predAt s L k i) i
       else getNext s j i) := by
  intro i hi j
  have h0n : (0 : Nat) ≠ s.numNodes := by have := hI.hnn; omega
  have hpn : ∀ i', predAt s L k i' ≠ s.numNodes :=
    fun i' => by have := predAt_lt_numNodes hI k i'; omega
  rw [insFin_getNext_eq_splice]
  rw [spliceLevels_getNext_lt s.numNodes (insUpd s k) lvl (insMid s k v lvl)
    (fun i' h => by rw [effUpd_insUpd hI k i']; exact hpn i')
    (fun i' h => by
      rw [effUpd_insUpd hI k i', insMid_partLv, if_neg (hpn i')]
      exact predAt_part hI k (by omega))
    (fun i' h hn => by
      rw [insMid_getNext, if_neg h0n]
      refine hI.headNext_hi (le_of_not_lt fun hc => ?_)
      rw [insUpd_getD hI k i', if_pos hc] at hn
      exact Option.noConfusion hn)
    (fun i' h => by rw [insMid_getNext, if_pos rfl])
    (by rw [insMid_partLv, if_pos rfl]) i hi j]
  rw [effUpd_insUpd hI k i]
  by_cases h1 : j = predAt s L k i
  · rw [if_pos h1, if_pos h1]
  · rw [if_neg h1, if_neg h1]
    by_cases h2 : j = s.numNodes
    · rw [if_pos h2, if_pos h2, insMid_getNext, if_neg (hpn i)]
    · rw [if_neg h2, if_neg h2, insMid_getNext, if_neg h2]

theorem insFin_getNext_ge {s : SL} (k : FKey) (v : Int) {lvl : Nat} :
    ∀ i, lvl ≤ i → ∀ j,
    getNext (insFin s k v lvl) j i =
      (if j = s.numNodes then none else getNext s j i) := by
  intro i hi j
  rw [insFin_getNext_eq_splice, spliceLevels_getNext_ge _ _ _ _ _ _ hi, insMid_getNext]

/-! ## `Insert` preserves the invariant -/

/-- The node list after inserting a fresh node with key `k`. -/
def newL (s : SL) (L : List Nat) (k : FKey) : List Nat :=
  L.takeWhile (fltb s k) ++ s.numNodes :: L.dropWhile (fltb s k)

theorem mem_newL {s : SL} {L : List Nat} {k : FKey} {j : Nat} :
    j ∈ newL s L k ↔ j = s.numNodes ∨ j ∈ L := by
  unfold newL
  constructor
  · intro h
    rcases List.mem_append.mp h with h | h
    · exact Or.inr ((List.takeWhile_sublist _).mem h)
    · rcases List.mem_cons.mp h with h | h
      · exact Or.inl h
      · exact Or.inr ((List.dropWhile_sublist _).mem h)
  · intro h
    rcases h with h | h
    · exact List.mem_append.mpr (Or.inr (by simp [h]))
    · rw [← List.takeWhile_append_dropWhile (fltb s k) L] at h
      rcases List.mem_append.mp h with h | h
      · exact List.mem_append.mpr (Or.inl h)
      · exact List.mem_append.mpr (Or.inr (by simp [h]))

theorem newL_length {s : SL} {L : List Nat} {k : FKey} :
    (newL s L k).length = L.length + 1 := by
  unfold newL
  have h := congrArg List.length (List.takeWhile_append_dropWhile (fltb s k) L)
  simp only [List.length_append] at h
  simp only [List.length_append, List.length_cons]
  omega

theorem insFin_chainL_lt {s : SL} {L : List Nat} (hI : SLInv s L) (k : FKey)
    (v : Int) {lvl : Nat} {i : Nat} (hi : i < lvl) :
    chainL (insFin s k v lvl) (newL s L k) i
      = (chainL s L i).takeWhile (fltb s k)
        ++ s.numNodes :: (chainL s L i).dropWhile (fltb s k) := by
  unfold chainL newL
  rw [List.filter_append, List.filter_cons]
  have hnid : decide (i < partLv (insFin s k v lvl) s.numNodes) = true := by
    rw [insFin_partLv, if_pos rfl]
    simpa using hi
  rw [hnid]
  have hT : (L.takeWhile (fltb s k)).filter
        (fun j => decide (i < partLv (insFin s k v lvl) j))
      = (L.takeWhile (fltb s k)).filter (fun j => decide (i < partLv s j)) := by
    refine List.filter_congr fun j hj => ?_
    have hjL : j ∈ L := (List.takeWhile_sublist _).mem hj
    have : j ≠ s.numNodes := by have := (hI.hval j hjL).2; omega
    rw [insFin_partLv, if_neg this]
  have hD : (L.dropWhile (fltb s k)).filter
        (fun j => decide (i < partLv (insFin s k v lvl) j))
      = (L.dropWhile (fltb s k)).filter (fun j => decide (i < partLv s j)) := by
    refine List.filter_congr fun j hj => ?_
    have hjL : j ∈ L := (List.dropWhile_sublist _).mem hj
    have : j ≠ s.numNodes := by have := (hI.hval j hjL).2; omega
    rw [insFin_partLv, if_neg this]
  rw [if_pos rfl, hT, hD, ← takeWhile_chain_comm hI k i, ← dropWhile_chain_comm hI k i]
  simp [chainL]

theorem insFin_chainL_ge {s : SL} {L : List Nat} (hI : SLInv s L) (k : FKey)
    (v : Int) {lvl : Nat} {i : Nat} (hi : lvl ≤ i) :
    chainL (insFin s k v lvl) (newL s L k) i = chainL s L i := by
  unfold chainL newL
  rw [List.filter_append, List.filter_cons]
  have hnid : decide (i < partLv (insFin s k v lvl) s.numNodes) = false := by
    rw [insFin_partLv, if_pos rfl]
    simpa using by omega
  rw [hnid]
  have hT : (L.takeWhile (fltb s k)).filter
        (fun j => decide (i < partLv (insFin s k v lvl) j))
      = (L.takeWhile (fltb s k)).filter (fun j => decide (i < partLv s j)) := by
    refine List.filter_congr fun j hj => ?_
    have hjL : j ∈ L := (List.takeWhile_sublist _).mem hj
    have : j ≠ s.numNodes := by have := (hI.hval j hjL).2; omega
    rw [insFin_partLv, if_neg this]
  have hD : (L.dropWhile (fltb s k)).filter
        (fun j => decide (i < partLv (insFin s k v lvl) j))
      = (L.dropWhile (fltb s k)).filter (fun j => decide (i < partLv s j)) := by
    refine List.filter_congr fun j hj => ?_
    have hjL : j ∈ L := (List.dropWhile_sublist _).mem hj
    have : j ≠ s.numNodes := by have := (hI.hval j hjL).2; omega
    rw [insFin_partLv, if_neg this]
  rw [if_neg (by simp : ¬ (false = true)), hT, hD]
  show _ ++ _ = _
  rw [← List.filter_append, List.takeWhile_append_dropWhile]

theorem insFin_links {s : SL} {L : List Nat} (hI : SLInv s L) {k : FKey}
    (v : Int) {lvl : Nat} (hlm : lvl ≤ s.maxLevel) :
    ∀ i, links (insFin s k v lvl) i (getNext (insFin s k v lvl) 0 i)
      (chainL (insFin s k v lvl) (newL s L k) i) := by
  intro i
  have h0n : (0 : Nat) ≠ s.numNodes := by have := hI.hnn; omega
  by_cases hi : i < lvl
  · rw [insFin_chainL_lt hI k v hi]
    have hform := fun j => insFin_getNext_lt hI k v hlm i hi j
    have hsplit : (chainL s L i).takeWhile (fltb s k)
        ++ (chainL s L i).dropWhile (fltb s k) = chainL s L i :=
      List.takeWhile_append_dropWhile _ _
    refine links_insert s (insFin s k v lvl) i s.numNodes (predAt s L k i)
      hform _ _ 0 (by rw [hsplit]; exact hI.hlinks i) rfl
      (by rw [hsplit]; exact hI.chain_nodup i) ?_ ?_ h0n
      (by have := predAt_lt_numNodes hI k i; omega)
    · intro hc
      rw [hsplit] at hc
      have := (hI.hval 0 (mem_chainL.mp hc).1).1
      omega
    · intro hc
      rw [hsplit] at hc
      have := (hI.hval s.numNodes (mem_chainL.mp hc).1).2
      omega
  · rw [insFin_chainL_ge hI k v (by omega)]
    have hstart : getNext (insFin s k v lvl) 0 i = getNext s 0 i := by
      rw [insFin_getNext_ge k v i (by omega) 0, if_neg h0n]
    rw [hstart]
    refine links_congr (hI.hlinks i) fun j hj => ?_
    have : j ≠ s.numNodes := by have := (hI.hval j (mem_chainL.mp hj).1).2; omega
    rw [insFin_getNext_ge k v i (by omega) j, if_neg this]

theorem insert_new_SLInv {s : SL} {L : List Nat} {k : FKey} (hI : SLInv s L)
    (hk : k ≠ FKey.nan) {v : Int} {lvl : Nat}
    (hl1 : 1 ≤ lvl) (hlm : lvl ≤ s.maxLevel)
    (hnf : foundIdx s L k = none) :
    SLInv (s.Insert k v lvl) (newL s L k) := by
  rw [insert_new_eq hI hnf v lvl]
  obtain ⟨hflev, hflen, hfnum, hfmax, hfupd⟩ := insFin_fields s k v lvl
  have h0n : (0 : Nat) ≠ s.numNodes := by have := hI.hnn; omega
  have hmemne : ∀ j ∈ L, j ≠ s.numNodes := fun j hj => by
    have := (hI.hval j hj).2; omega
  have hdropL : ∀ d ∈ L.dropWhile (fltb s k), flt k (keyOf s d) = true := by
    intro d hd
    have hdL : d ∈ L := (List.dropWhile_sublist _).mem hd
    have h1 : fltb s k d = false :=
      dropWhile_forall_not _ (fltb s k) sortKey_dc L hI.hsort d hd
    have h2 : feq (keyOf s d) k = false := foundIdx_none hI hnf d hdL
    exact not_flt_not_feq (hI.hnum d hdL) hk h1 h2
  refine ⟨?_, ?_, ?_, ?_, ?_, ?_, ?_, ?_, ?_, ?_, ?_, ?_, ?_, ?_, ?_⟩
  · -- hhead
    rw [hfmax, insFin_partLv, if_neg h0n]
    exact hI.hhead
  · -- hnn
    rw [hfnum]
    omega
  · -- hml
    rw [hfmax]
    exact hI.hml
  · -- hlev1
    rw [hflev]
    have h1 := hI.hlev1
    split <;> omega
  · -- hlevm
    rw [hflev, hfmax]
    have h1 := hI.hlevm
    split <;> omega
  · -- hupd
    rw [hfupd, hfmax, insUpd_length hI k]
  · -- hval
    intro j hj
    rw [hfnum]
    rcases mem_newL.mp hj with rfl | hjL
    · have := hI.hnn; omega
    · have := hI.hval j hjL; omega
  · -- hpos
    intro j hj
    rcases mem_newL.mp hj with rfl | hjL
    · rw [insFin_partLv, if_pos rfl]; exact hl1
    · rw [insFin_partLv, if_neg (hmemne j hjL)]; exact hI.hpos j hjL
  · -- hcap
    intro j hj
    rw [hflev]
    rcases mem_newL.mp hj with rfl | hjL
    · rw [insFin_partLv, if_pos rfl]; split <;> omega
    · rw [insFin_partLv, if_neg (hmemne j hjL)]
      have := hI.hcap j hjL
      split <;> omega
  · -- htop
    by_cases hgt : lvl > s.level
    · refine Or.inr ⟨s.numNodes, mem_newL.mpr (Or.inl rfl), ?_⟩
      rw [hflev, if_pos hgt, insFin_partLv, if_pos rfl]
    · rcases hI.htop with h1 | ⟨j, hjL, hle⟩
      · exact Or.inl (by rw [hflev, if_neg hgt, h1])
      · refine Or.inr ⟨j, mem_newL.mpr (Or.inr hjL), ?_⟩
        rw [hflev, if_neg hgt, insFin_partLv, if_neg (hmemne j hjL)]
        exact hle
  · -- hnum
    intro j hj
    rcases mem_newL.mp hj with rfl | hjL
    · rw [insFin_keyOf, if_pos rfl]; exact hk
    · rw [insFin_keyOf, if_neg (hmemne j hjL)]; exact hI.hnum j hjL
  · -- hsort
    show (newL s L k).Pairwise fun a b =>
      flt (keyOf (insFin s k v lvl) a) (keyOf (insFin s k v lvl) b) = true
    simp only [insFin_keyOf]
    unfold newL
    rw [List.pairwise_append]
    refine ⟨?_, ?_, ?_⟩
    · refine (hI.hsort.sublist (List.takeWhile_sublist _)).imp_of_mem ?_
      intro a b ha hb hab
      rw [if_neg (hmemne a ((List.takeWhile_sublist _).mem ha)),
        if_neg (hmemne b ((List.takeWhile_sublist _).mem hb))]
      exact hab
    · rw [List.pairwise_cons]
      refine ⟨?_, ?_⟩
      · intro d hd
        rw [if_pos rfl, if_neg (hmemne d ((List.dropWhile_sublist _).mem hd))]
        exact hdropL d hd
      · refine (hI.hsort.sublist (List.dropWhile_sublist _)).imp_of_mem ?_
        intro a b ha hb hab
        rw [if_neg (hmemne a ((List.dropWhile_sublist _).mem ha)),
          if_neg (hmemne b ((List.dropWhile_sublist _).mem hb))]
        exact hab
    · intro a ha b hb
      have haL : a ∈ L := (List.takeWhile_sublist _).mem ha
      have hak : flt (keyOf s a) k = true := List.mem_takeWhile_imp (p := fltb s k) ha
      rcases List.mem_cons.mp hb with rfl | hbD
      · rw [if_neg (hmemne a haL), if_pos rfl]
        exact hak
      · rw [if_neg (hmemne a haL),
          if_neg (hmemne b ((List.dropWhile_sublist _).mem hbD))]
        exact flt_trans hak (hdropL b hbD)
  · -- hlinks
    exact insFin_links hI v hlm
  · -- hstale
    intro i hi
    rw [hflev] at hi
    have hge : s.level ≤ i := by revert hi; split <;> omega
    rw [hfupd, insUpd_getD hI k i, if_neg (by omega)]
    exact hI.hstale i hge
  · -- hlen
    rw [hflen, hI.hlen, newL_length]
    push_cast
    ring

/-! ## The duplicate-key branch of `Insert` -/

theorem insert_found_facts {s : SL} {L : List Nat} {k : FKey} (hI : SLInv s L) {j : Nat}
    (hf : foundIdx s L k = some j) (v : Int) (lvl : Nat) :
    (∀ j' i, getNext (s.Insert k v lvl) j' i = getNext s j' i)
    ∧ (∀ j', keyOf (s.Insert k v lvl) j' = keyOf s j')
    ∧ (∀ j', partLv (s.Insert k v lvl) j' = partLv s j')
    ∧ (∀ j', j' ≠ j → ((s.Insert k v lvl).node j').value = (s.node j').value)
    ∧ ((s.Insert k v lvl).node j).value = v
    ∧ (∀ j', ((s.Insert k v lvl).node j').next = (s.node j').next)
    ∧ (s.Insert k v lvl).level = s.level
    ∧ (s.Insert k v lvl).length = s.length
    ∧ (s.Insert k v lvl).numNodes = s.numNodes
    ∧ (s.Insert k v lvl).maxLevel = s.maxLevel
    ∧ (s.Insert k v lvl).update = insUpd s k := by
  rw [insert_found_eq hI hf v lvl]
  refine ⟨?_, ?_, ?_, ?_, by simp, ?_, rfl, rfl, rfl, rfl, rfl⟩
  · intro j' i
    unfold getNext
    by_cases h : j' = j <;> simp [h]
  · intro j'
    unfold keyOf
    by_cases h : j' = j <;> simp [h]
  · intro j'
    unfold partLv
    by_cases h : j' = j <;> simp [h]
  · intro j' hne
    simp [hne]
  · intro j'
    by_cases h : j' = j <;> simp [h]

theorem insert_found_SLInv {s : SL} {L : List Nat} {k : FKey} (hI : SLInv s L) {j : Nat}
    (hf : foundIdx s L k = some j) (v : Int) (lvl : Nat) :
    SLInv (s.Insert k v lvl) L := by
  obtain ⟨hgn, hkey, hpart, _, _, _, hlev, hlen, hnum, hmax, hupd⟩ :=
    insert_found_facts hI hf v lvl
  have hchain : ∀ i, chainL (s.Insert k v lvl) L i = chainL s L i := by
    intro i
    unfold chainL
    exact List.filter_congr fun j' _ => by rw [hpart j']
  refine ⟨?_, ?_, ?_, ?_, ?_, ?_, ?_, ?_, ?_, ?_, ?_, ?_, ?_, ?_, ?_⟩
  · rw [hpart, hmax]; exact hI.hhead
  · rw [hnum]; exact hI.hnn
  · rw [hmax]; exact hI.hml
  · rw [hlev]; exact hI.hlev1
  · rw [hlev, hmax]; exact hI.hlevm
  · rw [hupd, hmax]; exact insUpd_length hI k
  · intro j' hj'; rw [hnum]; exact hI.hval j' hj'
  · intro j' hj'; rw [hpart]; exact hI.hpos j' hj'
  · intro j' hj'; rw [hpart, hlev]; exact hI.hcap j' hj'
  · rcases hI.htop with h | ⟨j', hj', hle⟩
    · exact Or.inl (by rw [hlev, h])
    · exact Or.inr ⟨j', hj', by rw [hlev, hpart]; exact hle⟩
  · intro j' hj'; rw [hkey]; exact hI.hnum j' hj'
  · show L.Pairwise fun a b =>
      flt (keyOf (s.Insert k v lvl) a) (keyOf (s.Insert k v lvl) b) = true
    simp only [hkey]
    exact hI.hsort
  · intro i
    rw [hchain i, hgn]
    exact links_congr (hI.hlinks i) fun j' _ => hgn j' i
  · intro i hi
    rw [hlev] at hi
    rw [hupd, insUpd_getD hI k i, if_neg (by omega)]
    exact hI.hstale i hi
  · rw [hlen]; exact hI.hlen

/-! ## The unlink-loop formula -/

theorem unlinkLevels_succ_none {upd : List (Option Nat)} {c : Nat}
    (nid : Nat) (s : SL) (h : upd.getD c none = none) :
    unlinkLevels nid upd (c + 1) s = unlinkLevels nid upd c s := by
  show unlinkLevels nid upd c _ = _
  rw [h]

theorem unlinkLevels_succ_some {upd : List (Option Nat)} {c p : Nat}
    (nid : Nat) (s : SL) (h : upd.getD c none = some p) :
    unlinkLevels nid upd (c + 1) s
      = unlinkLevels nid upd c (setNext s p c (getNext s nid c)) := by
  show unlinkLevels nid upd c _ = _
  rw [h]

theorem unlinkLevels_keyOf (nid : Nat) (upd : List (Option Nat)) :
    ∀ (c : Nat) (s : SL) (j : Nat), keyOf (unlinkLevels nid upd c s) j = keyOf s j := by
  intro c
  induction c with
  | zero => intro s j; rfl
  | succ c ih =>
    intro s j
    cases hu : upd.getD c none with
    | none => rw [unlinkLevels_succ_none nid s hu, ih]
    | some p => rw [unlinkLevels_succ_some nid s hu, ih, keyOf_setNext]

theorem unlinkLevels_value (nid : Nat) (upd : List (Option Nat)) :
    ∀ (c : Nat) (s : SL) (j : Nat),
    ((unlinkLevels nid upd c s).node j).value = (s.node j).value := by
  intro c
  induction c with
  | zero => intro s j; rfl
  | succ c ih =>
    intro s j
    cases hu : upd.getD c none with
    | none => rw [unlinkLevels_succ_none nid s hu, ih]
    | some p => rw [unlinkLevels_succ_some nid s hu, ih, value_setNext]

theorem unlinkLevels_partLv (nid : Nat) (upd : List (Option Nat)) :
    ∀ (c : Nat) (s : SL) (j : Nat), partLv (unlinkLevels nid upd c s) j = partLv s j := by
  intro c
  induction c with
  | zero => intro s j; rfl
  | succ c ih =>
    intro s j
    cases hu : upd.getD c none with
    | none => rw [unlinkLevels_succ_none nid s hu, ih]
    | some p => rw [unlinkLevels_succ_some nid s hu, ih, partLv_setNext]

theorem unlinkLevels_fields (nid : Nat) (upd : List (Option Nat)) :
    ∀ (c : Nat) (s : SL),
    (unlinkLevels nid upd c s).update = s.update
    ∧ (unlinkLevels nid upd c s).numNodes = s.numNodes
    ∧ (unlinkLevels nid upd c s).maxLevel = s.maxLevel
    ∧ (unlinkLevels nid upd c s).level = s.level
    ∧ (unlinkLevels nid upd c s).length = s.length := by
  intro c
  induction c with
  | zero => intro s; exact ⟨rfl, rfl, rfl, rfl, rfl⟩
  | succ c ih =>
    intro s
    cases hu : upd.getD c none with
    | none => rw [unlinkLevels_succ_none nid s hu]; exact ih s
    | some p =>
      rw [unlinkLevels_succ_some nid s hu]
      obtain ⟨h1, h2, h3, h4, h5⟩ := ih (setNext s p c (getNext s nid c))
      exact ⟨by rw [h1]; rfl, by rw [h2]; rfl, by rw [h3]; rfl, by rw [h4]; rfl,
        by rw [h5]; rfl⟩

theorem unlinkLevels_getNext_ge (nid : Nat) (upd : List (Option Nat)) :
    ∀ (c : Nat) (s : SL) (j i : Nat), c ≤ i →
    getNext (unlinkLevels nid upd c s) j i = getNext s j i := by
  intro c
  induction c with
  | zero => intro s j i _; rfl
  | succ c ih =>
    intro s j i hi
    cases hu : upd.getD c none with
    | none => rw [unlinkLevels_succ_none nid s hu, ih _ j i (by omega)]
    | some p =>
      rw [unlinkLevels_succ_some nid s hu, ih _ j i (by omega)]
      exact getNext_setNext_ne (Or.inr (by omega))

theorem unlinkLevels_getNext_lt (nid : Nat) (upd : List (Option Nat)) :
    ∀ (c : Nat) (s : SL),
    (∀ i, i < c → upd.getD i none = some (effUpd upd i)) →
    (∀ i, i < c → i < partLv s (effUpd upd i)) →
    ∀ i, i < c → ∀ j,
    getNext (unlinkLevels nid upd c s) j i =
      (if j = effUpd upd i then getNext s nid i else getNext s j i) := by
  intro c
  induction c with
  | zero => intro s _ _ i hi; omega
  | succ c ih =>
    intro s hsome hpart i hi j
    have hu : upd.getD c none = some (effUpd upd c) := hsome c (by omega)
    rw [unlinkLevels_succ_some nid s hu]
    by_cases hic : i < c
    · have hag : ∀ j' i', i' < c →
          getNext (setNext s (effUpd upd c) c (getNext s nid c)) j' i' = getNext s j' i' :=
        fun j' i' hi' => getNext_setNext_ne (Or.inr (by omega))
      rw [ih (setNext s (effUpd upd c) c (getNext s nid c))
        (fun i' h => hsome i' (by omega))
        (fun i' h => by rw [partLv_setNext]; exact hpart i' (by omega)) i hic j]
      rw [hag j i hic, hag nid i hic]
    · obtain rfl : i = c := by omega
      rw [unlinkLevels_getNext_ge nid upd i _ j i le_rfl]
      by_cases hjp : j = effUpd upd i
      · rw [if_pos hjp, hjp]
        exact getNext_setNext_self (hpart i hi)
      · rw [if_neg hjp]
        exact getNext_setNext_ne (Or.inl hjp)

/-! ## The shape of `Pop` -/

/-- The state after the unlink loop of a successful `Pop` of node `j`. -/
def popMid (s : SL) (k : FKey) (j : Nat) : SL :=
  unlinkLevels j (insUpd s k) (partLv s j) { s with update := insUpd s k }

/-- The final state of a successful `Pop` of node `j`. -/
def popFin (s : SL) (k : FKey) (j : Nat) : SL :=
  { popMid s k j with
      level := if partLv s j = s.level
        then decLevels (popMid s k j) (partLv s j - 1) s.level else s.level
      length := s.length - 1 }

theorem pop_cases_eq (s : SL) (k : FKey) :
    s.PopP k = (match (insUpd s k).getD 0 none with
      | none => ((none : Option Int), { s with update := insUpd s k })
      | some u0 => match getNext s u0 0 with
        | none => ((none : Option Int), { s with update := insUpd s k })
        | some j => if feq (keyOf s j) k
            then (some ((popMid s k j).node j).value, popFin s k j)
            else ((none : Option Int), { s with update := insUpd s k })) := rfl

theorem pop_notfound_eq {s : SL} {L : List Nat} {k : FKey} (hI : SLInv s L)
    (hnf : foundIdx s L k = none) :
    s.PopP k = (none, { s with update := insUpd s k }) := by
  rw [pop_cases_eq]
  have h0 : (insUpd s k).getD 0 none = some (predAt s L k 0) := by
    rw [insUpd_getD hI k 0, if_pos (by have := hI.hlev1; omega)]
  rw [h0]
  show (match getNext s (predAt s L k 0) 0 with
    | none => ((none : Option Int), { s with update := insUpd s k })
    | some j => if feq (keyOf s j) k
        then (some ((popMid s k j).node j).value, popFin s k j)
        else ((none : Option Int), { s with update := insUpd s k })) = _
  rw [getNext_pred0 hI k]
  unfold foundIdx at hnf
  cases hD : (chainL s L 0).dropWhile (fltb s k) with
  | nil => rfl
  | cons d rest =>
    rw [hD] at hnf
    have hfd : feq (keyOf s d) k = false := by
      by_contra hc
      have : feq (keyOf s d) k = true := by simpa using hc
      simp [this] at hnf
    show (if feq (keyOf s d) k = true then _ else _) = _
    rw [hfd]
    simp

theorem pop_found_eq {s : SL} {L : List Nat} {k : FKey} {j : Nat} (hI : SLInv s L)
    (hf : foundIdx s L k = some j) :
    s.PopP k = (some ((popMid s k j).node j).value, popFin s k j) := by
  rw [pop_cases_eq]
  have h0 : (insUpd s k).getD 0 none = some (predAt s L k 0) := by
    rw [insUpd_getD hI k 0, if_pos (by have := hI.hlev1; omega)]
  rw [h0]
  show (match getNext s (predAt s L k 0) 0 with
    | none => ((none : Option Int), { s with update := insUpd s k })
    | some j => if feq (keyOf s j) k
        then (some ((popMid s k j).node j).value, popFin s k j)
        else ((none : Option Int), { s with update := insUpd s k })) = _
  rw [getNext_pred0 hI k]
  unfold foundIdx at hf
  cases hD : (chainL s L 0).dropWhile (fltb s k) with
  | nil => rw [hD] at hf; exact absurd hf (by simp)
  | cons d rest =>
    rw [hD] at hf
    by_cases hfd : feq (keyOf s d) k = true
    · simp only [hfd, if_true] at hf
      obtain rfl : d = j := by simpa using hf
      show (if feq (keyOf s d) k = true then _ else _) = _
      rw [hfd]
      simp
    · simp only [hfd, if_false] at hf
      exact absurd hf (by simp)

theorem popMid_getNext_lt {s : SL} {L : List Nat} {k : FKey} {j : Nat} (hI : SLInv s L)
    (hjL : j ∈ L) :
    ∀ i, i < partLv s j → ∀ j',
    getNext (popMid s k j) j' i =
      (if j' = predAt s L k i then getNext s j i else getNext s j' i) := by
  intro i hi j'
  have hjlev : partLv s j ≤ s.level := hI.hcap j hjL
  have h := unlinkLevels_getNext_lt j (insUpd s k) (partLv s j)
    { s with update := insUpd s k }
    (fun i' h => by
      rw [insUpd_getD hI k i', if_pos (by omega), effUpd_insUpd hI k i'])
    (fun i' h => by
      show i' < partLv s (effUpd (insUpd s k) i')
      rw [effUpd_insUpd hI k i']
      exact predAt_part hI k (by have := hI.hlevm; omega))
    i hi j'
  rw [effUpd_insUpd hI k i] at h
  exact h

theorem popMid_getNext_ge {s : SL} {k : FKey} {j : Nat} :
    ∀ i, partLv s j ≤ i → ∀ j',
    getNext (popMid s k j) j' i = getNext s j' i := by
  intro i hi j'
  exact unlinkLevels_getNext_ge j (insUpd s k) (partLv s j) _ j' i hi

theorem popMid_keyOf (s : SL) (k : FKey) (j j' : Nat) :
    keyOf (popMid s k j) j' = keyOf s j' :=
  unlinkLevels_keyOf j (insUpd s k) (partLv s j) _ j'

theorem popMid_partLv (s : SL) (k : FKey) (j j' : Nat) :
    partLv (popMid s k j) j' = partLv s j' :=
  unlinkLevels_partLv j (insUpd s k) (partLv s j) _ j'

theorem popMid_value (s : SL) (k : FKey) (j j' : Nat) :
    ((popMid s k j).node j').value = (s.node j').value :=
  unlinkLevels_value j (insUpd s k) (partLv s j) _ j'

theorem popMid_fields (s : SL) (k : FKey) (j : Nat) :
    (popMid s k j).update = insUpd s k
    ∧ (popMid s k j).numNodes = s.numNodes
    ∧ (popMid s k j).maxLevel = s.maxLevel
    ∧ (popMid s k j).level = s.level
    ∧ (popMid s k j).length = s.length := by
  unfold popMid
  obtain ⟨h1, h2, h3, h4, h5⟩ := unlinkLevels_fields j (insUpd s k) (partLv s j)
    { s with update := insUpd s k }
  exact ⟨h1, h2, h3, h4, h5⟩

theorem popFin_getNext (s : SL) (k : FKey) (j j' i : Nat) :
    getNext (popFin s k j) j' i = getNext (popMid s k j) j' i := rfl

theorem popFin_keyOf (s : SL) (k : FKey) (j j' : Nat) :
    keyOf (popFin s k j) j' = keyOf s j' := popMid_keyOf s k j j'

theorem popFin_partLv (s : SL) (k : FKey) (j j' : Nat) :
    partLv (popFin s k j) j' = partLv s j' := popMid_partLv s k j j'

theorem popFin_value (s : SL) (k : FKey) (j j' : Nat) :
    ((popFin s k j).node j').value = (s.node j').value := popMid_value s k j j'

/-! ## Chains after a `Pop` -/

/-- The node list after removing the found node: everything before it plus
everything after it. -/
def popL (s : SL) (L : List Nat) (k : FKey) : List Nat :=
  L.takeWhile (fltb s k) ++ (L.dropWhile (fltb s k)).tail

theorem foundIdx_drop {s : SL} {L : List Nat} {k : FKey} {j : Nat}
    (hf : foundIdx s L k = some j) :
    (chainL s L 0).dropWhile (fltb s k) = j :: ((chainL s L 0).dropWhile (fltb s k)).tail := by
  unfold foundIdx at hf
  cases hD : (chainL s L 0).dropWhile (fltb s k) with
  | nil => rw [hD] at hf; exact absurd hf (by simp)
  | cons d rest =>
    rw [hD] at hf
    by_cases hfd : feq (keyOf s d) k = true
    · simp only [hfd, if_true] at hf
      obtain rfl : d = j := by simpa using hf
      rfl
    · simp only [hfd, if_false] at hf
      exact absurd hf (by simp)

theorem L_split_pop {s : SL} {L : List Nat} {k : FKey} {j : Nat} (hI : SLInv s L)
    (hf : foundIdx s L k = some j) :
    L = L.takeWhile (fltb s k) ++ j :: (L.dropWhile (fltb s k)).tail := by
  have h := foundIdx_drop hf
  rw [chainL0_eq hI] at h
  conv_lhs => rw [← List.takeWhile_append_dropWhile (fltb s k) L, h]

theorem feq_true_not_nan {a b : FKey} (h : feq a b = true) :
    a ≠ FKey.nan ∧ b ≠ FKey.nan := by
  cases a <;> cases b <;> simp_all [feq]

theorem popL_sublist (s : SL) (L : List Nat) (k : FKey) :
    (popL s L k).Sublist L := by
  unfold popL
  conv_rhs => rw [← List.takeWhile_append_dropWhile (fltb s k) L]
  exact List.Sublist.append_left (List.tail_sublist _) _

theorem popFin_chainL {s : SL} {L : List Nat} {k : FKey} {j : Nat} (hI : SLInv s L) :
    ∀ i, chainL (popFin s k j) (popL s L k) i
      = (chainL s L i).takeWhile (fltb s k)
        ++ ((L.dropWhile (fltb s k)).tail).filter (fun x => decide (i < partLv s x)) := by
  intro i
  have hcong : ∀ (l : List Nat),
      l.filter (fun x => decide (i < partLv (popFin s k j) x))
        = l.filter (fun x => decide (i < partLv s x)) :=
    fun l => List.filter_congr fun x _ => by rw [popFin_partLv]
  show (popL s L k).filter (fun x => decide (i < partLv (popFin s k j) x)) = _
  unfold popL
  rw [List.filter_append, hcong, hcong, takeWhile_chain_comm hI k i]

theorem chainL_split_pop {s : SL} {L : List Nat} {k : FKey} {j : Nat} (hI : SLInv s L)
    (hf : foundIdx s L k = some j) {i : Nat} (hi : i < partLv s j) :
    chainL s L i = (chainL s L i).takeWhile (fltb s k)
      ++ j :: ((L.dropWhile (fltb s k)).tail).filter (fun x => decide (i < partLv s x)) := by
  conv_lhs => rw [← List.takeWhile_append_dropWhile (fltb s k) (chainL s L i)]
  rw [dropWhile_chain_comm hI k i]
  have hD : L.dropWhile (fltb s k) = j :: (L.dropWhile (fltb s k)).tail := by
    have h := foundIdx_drop hf
    rwa [chainL0_eq hI] at h
  conv_lhs => rw [hD]
  rw [List.filter_cons]
  have : decide (i < partLv s j) = true := by simpa using hi
  rw [this, if_pos rfl]

theorem chainL_pop_hi {s : SL} {L : List Nat} {k : FKey} {j : Nat} (hI : SLInv s L)
    (hf : foundIdx s L k = some j) {i : Nat} (hi : partLv s j ≤ i) :
    chainL s L i = (chainL s L i).takeWhile (fltb s k)
      ++ ((L.dropWhile (fltb s k)).tail).filter (fun x => decide (i < partLv s x)) := by
  conv_lhs => rw [← List.takeWhile_append_dropWhile (fltb s k) (chainL s L i)]
  rw [dropWhile_chain_comm hI k i]
  have hD : L.dropWhile (fltb s k) = j :: (L.dropWhile (fltb s k)).tail := by
    have h := foundIdx_drop hf
    rwa [chainL0_eq hI] at h
  conv_lhs => rw [hD]
  rw [List.filter_cons]
  have : decide (i < partLv s j) = false := by simpa using by omega
  rw [this]
  show _ ++ (if false = true then _ else _) = _
  rw [if_neg (by simp : ¬ (false = true))]

theorem popFin_links {s : SL} {L : List Nat} {k : FKey} {j : Nat} (hI : SLInv s L)
    (hf : foundIdx s L k = some j) :
    ∀ i, links (popFin s k j) i (getNext (popFin s k j) 0 i)
      (chainL (popFin s k j) (popL s L k) i) := by
  intro i
  obtain ⟨hjL, hfeq⟩ := foundIdx_some hI hf
  rw [popFin_chainL hI i]
  by_cases hi : i < partLv s j
  · refine links_delete s (popFin s k j) i (predAt s L k i) j
      (fun j' => by rw [popFin_getNext, popMid_getNext_lt hI hjL i hi j']) _ _ 0
      (by rw [← chainL_split_pop hI hf hi]; exact hI.hlinks i) rfl ?_
    rw [← chainL_split_pop hI hf hi]
    rw [List.nodup_cons]
    refine ⟨fun hc => ?_, hI.chain_nodup i⟩
    have := (hI.hval 0 (mem_chainL.mp hc).1).1
    omega
  · rw [← chainL_pop_hi hI hf (by omega)]
    have hstart : getNext (popFin s k j) 0 i = getNext s 0 i := by
      rw [popFin_getNext, popMid_getNext_ge i (by omega) 0]
    rw [hstart]
    exact links_congr (hI.hlinks i) fun j' _ => by
      rw [popFin_getNext, popMid_getNext_ge i (by omega) j']

/-! ## The level decrease of `Pop` -/

/-- The number of empty levels among indices `1..c` (what the decrease loop
subtracts). -/
def cntE (s : SL) : Nat → Nat
  | 0 => 0
  | i + 1 => cntE s i + (if getNext s 0 (i + 1) = none then 1 else 0)

theorem decLevels_eq_sub (s : SL) : ∀ (c lv : Nat), decLevels s c lv = lv - cntE s c := by
  intro c
  induction c with
  | zero => intro lv; rfl
  | succ c ih =>
    intro lv
    show decLevels s c _ = _
    rw [ih]
    have hc : cntE s (c + 1) = cntE s c + (if getNext s 0 (c + 1) = none then 1 else 0) := rfl
    rw [hc]
    by_cases h : getNext s 0 (c + 1) = none
    · rw [if_pos h, if_pos h]
      omega
    · rw [if_neg h, if_neg h]
      omega

/-- The maximum level at which any node of `l` participates (0 when empty). -/
def maxPart (s : SL) (l : List Nat) : Nat := (l.map (partLv s)).foldr Nat.max 0

theorem le_maxPart {s : SL} {l : List Nat} {j : Nat} (hj : j ∈ l) :
    partLv s j ≤ maxPart s l := by
  induction l with
  | nil => simp at hj
  | cons a l ih =>
    rcases List.mem_cons.mp hj with rfl | hj'
    · exact le_max_left _ _
    · exact le_trans (ih hj') (le_max_right _ _)

theorem maxPart_le {s : SL} {l : List Nat} {b : Nat} (h : ∀ j ∈ l, partLv s j ≤ b) :
    maxPart s l ≤ b := by
  induction l with
  | nil => exact Nat.zero_le b
  | cons a l ih =>
    exact max_le (h a (by simp)) (ih fun j hj => h j (by simp [hj]))

theorem maxPart_attained {s : SL} (l : List Nat) :
    maxPart s l = 0 ∨ ∃ j ∈ l, partLv s j = maxPart s l := by
  induction l with
  | nil => exact Or.inl rfl
  | cons a l ih =>
    by_cases hM : maxPart s l = 0
    · refine Or.inr ⟨a, by simp, ?_⟩
      show partLv s a = max (partLv s a) (maxPart s l)
      rw [hM, Nat.max_zero]
    · obtain ⟨j, hj, hpj⟩ := ih.resolve_left hM
      rcases le_total (partLv s a) (maxPart s l) with h | h
      · refine Or.inr ⟨j, by simp [hj], ?_⟩
        show partLv s j = max (partLv s a) (maxPart s l)
        rw [Nat.max_eq_right h, hpj]
      · refine Or.inr ⟨a, by simp, ?_⟩
        show partLv s a = max (partLv s a) (maxPart s l)
        rw [Nat.max_eq_left h]

theorem mem_popL_of {s : SL} {L : List Nat} {k : FKey} {j j' : Nat} (hI : SLInv s L)
    (hf : foundIdx s L k = some j) (hj' : j' ∈ L) (hne : j' ≠ j) :
    j' ∈ popL s L k := by
  have hsplit := L_split_pop hI hf
  rw [hsplit] at hj'
  unfold popL
  rcases List.mem_append.mp hj' with h | h
  · exact List.mem_append.mpr (Or.inl h)
  · rcases List.mem_cons.mp h with h | h
    · exact absurd h hne
    · exact List.mem_append.mpr (Or.inr h)

theorem popMid_empty_iff {s : SL} {L : List Nat} {k : FKey} {j : Nat} (hI : SLInv s L)
    (hf : foundIdx s L k = some j) (i : Nat) :
    (getNext (popMid s k j) 0 i = none) ↔ maxPart s (popL s L k) ≤ i := by
  have hlk := popFin_links hI hf i
  rw [popFin_getNext] at hlk
  constructor
  · intro h
    rw [h] at hlk
    cases hc : chainL (popFin s k j) (popL s L k) i with
    | nil =>
      refine maxPart_le fun j' hj' => ?_
      by_contra hgt
      have hmem : j' ∈ chainL (popFin s k j) (popL s L k) i := by
        rw [mem_chainL, popFin_partLv]
        exact ⟨hj', by omega⟩
      rw [hc] at hmem
      simp at hmem
    | cons d rest =>
      rw [hc] at hlk
      exact absurd hlk.1 (by simp)
  · intro h
    have hc : chainL (popFin s k j) (popL s L k) i = [] := by
      refine List.filter_eq_nil_iff.mpr fun j' hj' => ?_
      have := le_trans (le_maxPart hj') h
      rw [popFin_partLv]
      simp only [decide_eq_true_eq]
      omega
    rw [hc] at hlk
    exact hlk

theorem cntE_popMid {s : SL} {L : List Nat} {k : FKey} {j : Nat} (hI : SLInv s L)
    (hf : foundIdx s L k = some j) :
    ∀ c, cntE (popMid s k j) c
      = c - min c (max (maxPart s (popL s L k)) 1 - 1) := by
  intro c
  induction c with
  | zero =>
    show (0 : Nat) = 0 - min 0 (max (maxPart s (popL s L k)) 1 - 1)
    omega
  | succ c ih =>
    have hc : cntE (popMid s k j) (c + 1)
        = cntE (popMid s k j) c
          + (if getNext (popMid s k j) 0 (c + 1) = none then 1 else 0) := rfl
    rw [hc, ih]
    by_cases h : getNext (popMid s k j) 0 (c + 1) = none
    · rw [if_pos h]
      have hle := (popMid_empty_iff hI hf (c + 1)).mp h
      omega
    · rw [if_neg h]
      have hgt : ¬ maxPart s (popL s L k) ≤ c + 1 := fun hc =>
        h ((popMid_empty_iff hI hf (c + 1)).mpr hc)
      omega

theorem popFin_level {s : SL} {L : List Nat} {k : FKey} {j : Nat} (hI : SLInv s L)
    (hf : foundIdx s L k = some j) :
    (popFin s k j).level = max (maxPart s (popL s L k)) 1 := by
  obtain ⟨hjL, hfeq⟩ := foundIdx_some hI hf
  have hMle : maxPart s (popL s L k) ≤ s.level :=
    maxPart_le fun j' hj' => hI.hcap j' ((popL_sublist s L k).mem hj')
  have hlev1 := hI.hlev1
  show (if partLv s j = s.level
      then decLevels (popMid s k j) (partLv s j - 1) s.level else s.level) = _
  by_cases hsplit : partLv s j = s.level
  · rw [if_pos hsplit, decLevels_eq_sub, cntE_popMid hI hf, hsplit]
    omega
  · rw [if_neg hsplit]
    have hjlt : partLv s j < s.level := by
      have := hI.hcap j hjL
      omega
    have hjm : ∃ jm ∈ L, s.level ≤ partLv s jm := by
      rcases hI.htop with h1 | h
      · have := hI.hpos j hjL
        omega
      · exact h
    obtain ⟨jm, hjmL, hjmle⟩ := hjm
    have hjmeq : partLv s jm = s.level := le_antisymm (hI.hcap jm hjmL) hjmle
    have hjmne : jm ≠ j := fun he => by rw [he] at hjmeq; omega
    have hjmpop : jm ∈ popL s L k := mem_popL_of hI hf hjmL hjmne
    have h1 : s.level ≤ maxPart s (popL s L k) := by
      rw [← hjmeq]
      exact le_maxPart hjmpop
    omega

/-! ## `Pop` preserves the invariant -/

theorem pop_notfound_SLInv {s : SL} {L : List Nat} {k : FKey} (hI : SLInv s L)
    (hnf : foundIdx s L k = none) :
    SLInv (s.PopP k).2 L := by
  rw [pop_notfound_eq hI hnf]
  show SLInv { s with update := insUpd s k } L
  refine ⟨hI.hhead, hI.hnn, hI.hml, hI.hlev1, hI.hlevm, ?_, hI.hval, hI.hpos,
    hI.hcap, ?_, hI.hnum, hI.hsort, ?_, ?_, hI.hlen⟩
  · show (insUpd s k).length = s.maxLevel
    exact insUpd_length hI k
  · exact hI.htop
  · intro i
    exact links_congr (hI.hlinks i) fun j' _ => rfl
  · intro i hi
    have hi' : s.level ≤ i := hi
    show (insUpd s k).getD i none = none ∨ (insUpd s k).getD i none = some 0
    rw [insUpd_getD hI k i, if_neg (by omega)]
    exact hI.hstale i hi'

theorem pop_found_SLInv {s : SL} {L : List Nat} {k : FKey} {j : Nat} (hI : SLInv s L)
    (hf : foundIdx s L k = some j) :
    SLInv (popFin s k j) (popL s L k) := by
  obtain ⟨hjL, hfeq⟩ := foundIdx_some hI hf
  obtain ⟨hmupd, hmnum, hmmax, hmlev, hmlen⟩ := popMid_fields s k j
  have hsubset : ∀ j' ∈ popL s L k, j' ∈ L := fun j' hj' => (popL_sublist s L k).mem hj'
  have hMle : maxPart s (popL s L k) ≤ s.level :=
    maxPart_le fun j' hj' => hI.hcap j' (hsubset j' hj')
  have hlev' := popFin_level hI hf
  have hlenN : L.length = (popL s L k).length + 1 := by
    conv_lhs => rw [L_split_pop hI hf]
    unfold popL
    simp only [List.length_append, List.length_cons]
    omega
  refine ⟨?_, ?_, ?_, ?_, ?_, ?_, ?_, ?_, ?_, ?_, ?_, ?_, ?_, ?_, ?_⟩
  · -- hhead
    show partLv (popFin s k j) 0 = (popFin s k j).maxLevel
    rw [popFin_partLv]
    show partLv s 0 = (popMid s k j).maxLevel
    rw [hmmax]
    exact hI.hhead
  · -- hnn
    show 1 ≤ (popMid s k j).numNodes
    rw [hmnum]; exact hI.hnn
  · -- hml
    show 1 ≤ (popMid s k j).maxLevel
    rw [hmmax]; exact hI.hml
  · -- hlev1
    rw [hlev']; omega
  · -- hlevm
    show (popFin s k j).level ≤ (popMid s k j).maxLevel
    rw [hlev', hmmax]
    have h1 := hI.hlevm
    have h2 := hI.hlev1
    omega
  · -- hupd
    show (popMid s k j).update.length = (popMid s k j).maxLevel
    rw [hmupd, hmmax]
    exact insUpd_length hI k
  · -- hval
    intro j' hj'
    show 1 ≤ j' ∧ j' < (popMid s k j).numNodes
    rw [hmnum]
    exact hI.hval j' (hsubset j' hj')
  · -- hpos
    intro j' hj'
    rw [popFin_partLv]
    exact hI.hpos j' (hsubset j' hj')
  · -- hcap
    intro j' hj'
    rw [popFin_partLv, hlev']
    have := le_maxPart (s := s) hj'
    omega
  · -- htop
    rcases maxPart_attained (s := s) (popL s L k) with h0 | ⟨jm, hjm, hjmeq⟩
    · exact Or.inl (by rw [hlev', h0]; omega)
    · have h1 : 1 ≤ maxPart s (popL s L k) := by
        have := hI.hpos jm (hsubset jm hjm)
        omega
      refine Or.inr ⟨jm, hjm, ?_⟩
      rw [popFin_partLv, hlev', hjmeq]
      omega
  · -- hnum
    intro j' hj'
    rw [popFin_keyOf]
    exact hI.hnum j' (hsubset j' hj')
  · -- hsort
    show (popL s L k).Pairwise fun a b =>
      flt (keyOf (popFin s k j) a) (keyOf (popFin s k j) b) = true
    simp only [popFin_keyOf]
    exact hI.hsort.sublist (popL_sublist s L k)
  · -- hlinks
    exact popFin_links hI hf
  · -- hstale
    intro i hi
    have hupd2 : (popFin s k j).update = insUpd s k := hmupd
    rw [hupd2, insUpd_getD hI k i]
    by_cases hlt : i < s.level
    · rw [if_pos hlt]
      rw [hlev'] at hi
      have hchainempty : chainL (popFin s k j) (popL s L k) i = [] := by
        refine List.filter_eq_nil_iff.mpr fun j' hj' => ?_
        have := le_trans (le_maxPart (s := s) hj') (by omega : maxPart s (popL s L k) ≤ i)
        rw [popFin_partLv]
        simp only [decide_eq_true_eq]
        omega
      rw [popFin_chainL hI i] at hchainempty
      have hT : (chainL s L i).takeWhile (fltb s k) = [] :=
        (List.append_eq_nil.mp hchainempty).1
      refine Or.inr ?_
      unfold predAt
      rw [hT]
      rfl
    · rw [if_neg hlt]
      exact hI.hstale i (by omega)
  · -- hlen
    show s.length - 1 = _
    rw [hI.hlen, hlenN]
    push_cast
    ring

/-! ## The fresh list satisfies the invariant -/

theorem mkSL_SLInv {m : Nat} (hm : 1 ≤ m) : SLInv (mkSL m) [] := by
  have hnext : ∀ i, getNext (mkSL m) 0 i = none := by
    intro i
    show (List.replicate m none).getD i none = none
    rw [getD_replicate]
    exact ite_self none
  refine ⟨?_, le_rfl, hm, le_rfl, hm, ?_, ?_, ?_, ?_, Or.inl rfl, ?_, ?_, ?_, ?_, rfl⟩
  · show (List.replicate m (none : Option Nat)).length = m
    exact List.length_replicate m none
  · show (List.replicate m (none : Option Nat)).length = m
    exact List.length_replicate m none
  · intro j hj; simp at hj
  · intro j hj; simp at hj
  · intro j hj; simp at hj
  · intro j hj; simp at hj
  · exact List.Pairwise.nil
  · intro i
    show links (mkSL m) i (getNext (mkSL m) 0 i) []
    exact hnext i
  · intro i _
    refine Or.inl ?_
    show (List.replicate m (none : Option Nat)).getD i none = none
    rw [getD_replicate]
    exact ite_self none

/-! ## Every reachable state satisfies the invariant -/

theorem applyOp_SLInv {s : SL} {L : List Nat} (hI : SLInv s L) {o : Op}
    (ho : o.ok s.maxLevel) :
    ∃ L', SLInv (applyOp s o) L' ∧ (applyOp s o).maxLevel = s.maxLevel := by
  cases o with
  | ins k v lvl =>
    obtain ⟨hk, hl1, hlm⟩ := ho
    cases hF : foundIdx s L k with
    | some j =>
      exact ⟨L, insert_found_SLInv hI hF v lvl,
        (insert_found_facts hI hF v lvl).2.2.2.2.2.2.2.2.2.1⟩
    | none =>
      refine ⟨newL s L k, insert_new_SLInv hI hk hl1 hlm hF, ?_⟩
      show (s.Insert k v lvl).maxLevel = s.maxLevel
      rw [insert_new_eq hI hF v lvl]
      exact (insFin_fields s k v lvl).2.2.2.1
  | del k =>
    cases hF : foundIdx s L k with
    | some j =>
      refine ⟨popL s L k, ?_, ?_⟩
      · show SLInv (s.PopP k).2 (popL s L k)
        rw [pop_found_eq hI hF]
        exact pop_found_SLInv hI hF
      · show (s.PopP k).2.maxLevel = s.maxLevel
        rw [pop_found_eq hI hF]
        exact (popMid_fields s k j).2.2.1
    | none =>
      refine ⟨L, pop_notfound_SLInv hI hF, ?_⟩
      show (s.PopP k).2.maxLevel = s.maxLevel
      rw [pop_notfound_eq hI hF]
  | pop k =>
    cases hF : foundIdx s L k with
    | some j =>
      refine ⟨popL s L k, ?_, ?_⟩
      · show SLInv (s.PopP k).2 (popL s L k)
        rw [pop_found_eq hI hF]
        exact pop_found_SLInv hI hF
      · show (s.PopP k).2.maxLevel = s.maxLevel
        rw [pop_found_eq hI hF]
        exact (popMid_fields s k j).2.2.1
    | none =>
      refine ⟨L, pop_notfound_SLInv hI hF, ?_⟩
      show (s.PopP k).2.maxLevel = s.maxLevel
      rw [pop_notfound_eq hI hF]

theorem runOps_SLInv_aux {m : Nat} :
    ∀ (ops : List Op) (s : SL) (L : List Nat), SLInv s L → s.maxLevel = m →
    (∀ o ∈ ops, o.ok m) →
    ∃ L', SLInv (runOps s ops) L' ∧ (runOps s ops).maxLevel = m := by
  intro ops
  induction ops with
  | nil => intro s L hI hmax _; exact ⟨L, hI, hmax⟩
  | cons o rest ih =>
    intro s L hI hmax hok
    obtain ⟨L₁, hI₁, hmax₁⟩ := applyOp_SLInv hI (by rw [hmax]; exact hok o (by simp))
    exact ih (applyOp s o) L₁ hI₁ (by rw [hmax₁, hmax])
      fun o' ho' => hok o' (by simp [ho'])

theorem runOps_SLInv {m : Nat} (hm : 1 ≤ m) (ops : List Op)
    (hok : ∀ o ∈ ops, o.ok m) :
    ∃ L, SLInv (runOps (mkSL m) ops) L ∧ (runOps (mkSL m) ops).maxLevel = m :=
  runOps_SLInv_aux ops (mkSL m) [] (mkSL_SLInv hm) rfl hok

/-! ## Remaining helper lemmas for the claims -/

theorem feq_self_of_ne_nan {k : FKey} (hk : k ≠ FKey.nan) : feq k k = true := by
  cases k with
  | nan => exact absurd rfl hk
  | num z => simp [feq]

theorem dropWhile_middle {α : Type} (p : α → Bool) (A B : List α) (x : α)
    (hA : ∀ a ∈ A, p a = true) (hx : p x = false) :
    (A ++ x :: B).dropWhile p = x :: B := by
  induction A with
  | nil => simp [List.dropWhile_cons, hx]
  | cons a A ih =>
    simp only [List.cons_append, List.dropWhile_cons, hA a (by simp)]
    exact ih fun a' ha' => hA a' (by simp [ha'])

theorem takeWhile_middle {α : Type} (p : α → Bool) (A B : List α) (x : α)
    (hA : ∀ a ∈ A, p a = true) (hx : p x = false) :
    (A ++ x :: B).takeWhile p = A := by
  induction A with
  | nil => simp [List.takeWhile_cons, hx]
  | cons a A ih =>
    simp only [List.cons_append, List.takeWhile_cons, hA a (by simp), if_pos]
    rw [ih fun a' ha' => hA a' (by simp [ha'])]

theorem foundIdx_congr {s s' : SL} {L : List Nat} {k : FKey}
    (hpart : ∀ j, partLv s' j = partLv s j)
    (hkey : ∀ j, keyOf s' j = keyOf s j) :
    foundIdx s' L k = foundIdx s L k := by
  unfold foundIdx
  have h1 : chainL s' L 0 = chainL s L 0 :=
    List.filter_congr fun j _ => by rw [hpart]
  have h2 : fltb s' k = fltb s k := funext fun j => by unfold fltb; rw [hkey]
  rw [h1, h2]
  cases hD : (chainL s L 0).dropWhile (fltb s k) with
  | nil => rfl
  | cons d rest =>
    show (if feq (keyOf s' d) k = true then some d else none)
      = (if feq (keyOf s d) k = true then some d else none)
    rw [hkey]

/-! ## Claim C1 -/

/-- C1: after any finite sequence of Insert/Delete/Pop calls with non-NaN
keys on a fresh list, at every level the keys of adjacent reachable nodes
are strictly increasing, and a node reachable at a level is reachable at
every lower level (monotone participation). -/
theorem skiplist_C1_invariants (m : Nat) (hm : 1 ≤ m) (ops : List Op)
    (hok : ∀ o ∈ ops, o.ok m) :
    (∀ i, (chainList (runOps (mkSL m) ops) i).Chain'
        (fun a b => flt (keyOf (runOps (mkSL m) ops) a)
          (keyOf (runOps (mkSL m) ops) b) = true))
    ∧ (∀ i i' j, i' ≤ i → j ∈ chainList (runOps (mkSL m) ops) i →
        j ∈ chainList (runOps (mkSL m) ops) i') := by
  obtain ⟨L, hI, _⟩ := runOps_SLInv hm ops hok
  constructor
  · intro i
    rw [chainList_eq_chainL hI i]
    exact (hI.chain_sorted i).chain'
  · intro i i' j hle hj
    rw [chainList_eq_chainL hI i] at hj
    rw [chainList_eq_chainL hI i']
    obtain ⟨hjL, hpart⟩ := mem_chainL.mp hj
    exact mem_chainL.mpr ⟨hjL, by omega⟩

/-- Witness for C1 at a concrete run. -/
theorem skiplist_C1_witness :
    (1 ≤ 3 ∧ (∀ o ∈ [Op.ins (FKey.num 5) 7 2, Op.ins (FKey.num 2) 4 3,
        Op.pop (FKey.num 5)], o.ok 3))
    ∧ ((∀ i, (chainList (runOps (mkSL 3) [Op.ins (FKey.num 5) 7 2,
          Op.ins (FKey.num 2) 4 3, Op.pop (FKey.num 5)]) i).Chain'
        (fun a b => flt (keyOf (runOps (mkSL 3) [Op.ins (FKey.num 5) 7 2,
          Op.ins (FKey.num 2) 4 3, Op.pop (FKey.num 5)]) a)
          (keyOf (runOps (mkSL 3) [Op.ins (FKey.num 5) 7 2,
          Op.ins (FKey.num 2) 4 3, Op.pop (FKey.num 5)]) b) = true))
    ∧ (∀ i i' j, i' ≤ i →
        j ∈ chainList (runOps (mkSL 3) [Op.ins (FKey.num 5) 7 2,
          Op.ins (FKey.num 2) 4 3, Op.pop (FKey.num 5)]) i →
        j ∈ chainList (runOps (mkSL 3) [Op.ins (FKey.num 5) 7 2,
          Op.ins (FKey.num 2) 4 3, Op.pop (FKey.num 5)]) i')) :=
  ⟨⟨by omega, by decide⟩,
    skiplist_C1_invariants 3 (by omega) _ (by decide)⟩

/-! ## Claim C2 -/

/-- C2: the `level` field always equals the maximum level at which any
reachable node participates, or 1 when the list is empty (`maxPart` is 0 on
an empty chain, and the `max ... 1` realises the "or 1" clause); in
particular `Pop`'s decrement loop, although it does not stop at the first
non-empty level, lands exactly there. -/
theorem skiplist_C2_level (m : Nat) (hm : 1 ≤ m) (ops : List Op)
    (hok : ∀ o ∈ ops, o.ok m) :
    (runOps (mkSL m) ops).level
      = max (maxPart (runOps (mkSL m) ops)
          (chainList (runOps (mkSL m) ops) 0)) 1 := by
  obtain ⟨L, hI, _⟩ := runOps_SLInv hm ops hok
  rw [chainList_eq_chainL hI 0, chainL0_eq hI]
  have h1 : maxPart (runOps (mkSL m) ops) L ≤ (runOps (mkSL m) ops).level :=
    maxPart_le hI.hcap
  have h2 := hI.hlev1
  rcases hI.htop with h3 | ⟨j, hjL, hle⟩
  · rw [h3]
    have : maxPart (runOps (mkSL m) ops) L ≤ 1 := by omega
    omega
  · have h4 := le_maxPart (s := runOps (mkSL m) ops) hjL
    omega

/-- Witness for C2 at a concrete run. -/
theorem skiplist_C2_witness :
    (1 ≤ 4 ∧ (∀ o ∈ [Op.ins (FKey.num 1) 1 4, Op.ins (FKey.num 2) 2 1,
        Op.pop (FKey.num 1)], o.ok 4))
    ∧ (runOps (mkSL 4) [Op.ins (FKey.num 1) 1 4, Op.ins (FKey.num 2) 2 1,
        Op.pop (FKey.num 1)]).level
      = max (maxPart (runOps (mkSL 4) [Op.ins (FKey.num 1) 1 4,
          Op.ins (FKey.num 2) 2 1, Op.pop (FKey.num 1)])
          (chainList (runOps (mkSL 4) [Op.ins (FKey.num 1) 1 4,
          Op.ins (FKey.num 2) 2 1, Op.pop (FKey.num 1)]) 0)) 1 :=
  ⟨⟨by omega, by decide⟩, skiplist_C2_level 4 (by omega) _ (by decide)⟩

/-! ## Claim C3 -/

/-- C3: when `Insert` creates a node with a sampled level `lvl` above the
current level, at every level index `i` with `level <= i < lvl` the new node
(id `numNodes` of the pre-state) becomes the direct successor of the head
sentinel — even though the reused cross-call `update` table may hold non-nil
entries at those indices, those stale entries are always the head itself, so
the splice lands directly after the head. -/
theorem skiplist_C3_high_splice (m : Nat) (hm : 1 ≤ m) (ops : List Op)
    (hok : ∀ o ∈ ops, o.ok m) (k : FKey) (hk : k ≠ FKey.nan)
    (v : Int) (lvl : Nat) (hl1 : 1 ≤ lvl) (hlm : lvl ≤ m)
    (habs : containsKey (runOps (mkSL m) ops) k = false) :
    ∀ i, (runOps (mkSL m) ops).level ≤ i → i < lvl →
    getNext ((runOps (mkSL m) ops).Insert k v lvl) 0 i
      = some (runOps (mkSL m) ops).numNodes := by
  obtain ⟨L, hI, hmax⟩ := runOps_SLInv hm ops hok
  intro i hge hlt
  have hF : foundIdx (runOps (mkSL m) ops) L k = none := by
    cases hF : foundIdx (runOps (mkSL m) ops) L k with
    | none => rfl
    | some j =>
      rw [(containsKey_iff_foundIdx hI k).mpr (by rw [hF]; rfl)] at habs
      exact absurd habs (by simp)
  rw [insert_new_eq hI hF v lvl,
    insFin_getNext_lt hI k v (by omega) i hlt 0,
    predAt_hi hI hge, if_pos rfl]

/-- Witness for C3: after raising the list to level 3 and popping back down
to level 1 (leaving stale non-nil `update` entries at the high levels), a
fresh high-level insert still lands directly after the head. -/
theorem skiplist_C3_witness :
    (1 ≤ 3 ∧ (∀ o ∈ [Op.ins (FKey.num 5) 7 3, Op.pop (FKey.num 5)], o.ok 3)
      ∧ FKey.num 9 ≠ FKey.nan ∧ 1 ≤ 3
      ∧ containsKey (runOps (mkSL 3) [Op.ins (FKey.num 5) 7 3,
          Op.pop (FKey.num 5)]) (FKey.num 9) = false)
    ∧ getNext ((runOps (mkSL 3) [Op.ins (FKey.num 5) 7 3,
        Op.pop (FKey.num 5)]).Insert (FKey.num 9) 1 3) 0 2
      = some (runOps (mkSL 3) [Op.ins (FKey.num 5) 7 3,
        Op.pop (FKey.num 5)]).numNodes :=
  ⟨⟨by omega, by decide, by decide, by omega, by decide⟩,
    skiplist_C3_high_splice 3 (by omega) _ (by decide) (FKey.num 9) (by decide)
      1 3 (by omega) (by omega) (by decide) 2 (by decide) (by decide)⟩

/-! ## Claim C4 -/

/-- C4: inserting an existing key overwrites the value in place: the length,
the level, the allocation count, every node's link structure and key, and
every node with a different key keep their state, and a subsequent `Search`
returns the new value. -/
theorem skiplist_C4_upsert (m : Nat) (hm : 1 ≤ m) (ops : List Op)
    (hok : ∀ o ∈ ops, o.ok m) (k : FKey) (v : Int) (lvl : Nat)
    (hc : containsKey (runOps (mkSL m) ops) k = true) :
    ((runOps (mkSL m) ops).Insert k v lvl).Len = (runOps (mkSL m) ops).Len
    ∧ ((runOps (mkSL m) ops).Insert k v lvl).level = (runOps (mkSL m) ops).level
    ∧ ((runOps (mkSL m) ops).Insert k v lvl).numNodes = (runOps (mkSL m) ops).numNodes
    ∧ (∀ j, (((runOps (mkSL m) ops).Insert k v lvl).node j).next
        = ((runOps (mkSL m) ops).node j).next)
    ∧ (∀ j, (((runOps (mkSL m) ops).Insert k v lvl).node j).key
        = ((runOps (mkSL m) ops).node j).key)
    ∧ (∀ j, feq (keyOf (runOps (mkSL m) ops) j) k = false →
        (((runOps (mkSL m) ops).Insert k v lvl).node j).value
          = ((runOps (mkSL m) ops).node j).value)
    ∧ ((runOps (mkSL m) ops).Insert k v lvl).Search k = some v := by
  obtain ⟨L, hI, _⟩ := runOps_SLInv hm ops hok
  obtain ⟨j, hF⟩ : ∃ j, foundIdx (runOps (mkSL m) ops) L k = some j := by
    have := (containsKey_iff_foundIdx hI k).mp hc
    cases hF : foundIdx (runOps (mkSL m) ops) L k with
    | none => rw [hF] at this; exact absurd this (by simp)
    | some j => exact ⟨j, rfl⟩
  obtain ⟨hgn, hkey, hpart, hval', hvj, hnext, hlev, hlen, hnum, hmax, hupd⟩ :=
    insert_found_facts hI hF v lvl
  obtain ⟨hjL, hfeq⟩ := foundIdx_some hI hF
  refine ⟨hlen, hlev, hnum, hnext, hkey, ?_, ?_⟩
  · intro j' hj'
    refine hval' j' fun he => ?_
    rw [he] at hj'
    rw [hfeq] at hj'
    exact Bool.noConfusion hj'
  · have hI' := insert_found_SLInv hI hF v lvl
    rw [search_spec hI' k]
    have hF' : foundIdx ((runOps (mkSL m) ops).Insert k v lvl) L k = some j := by
      rw [foundIdx_congr hpart hkey]
      exact hF
    rw [hF']
    show some (((runOps (mkSL m) ops).Insert k v lvl).node j).value = some v
    rw [hvj]

/-- Witness for C4 at a concrete run. -/
theorem skiplist_C4_witness :
    (1 ≤ 3 ∧ (∀ o ∈ [Op.ins (FKey.num 5) 7 2], o.ok 3)
      ∧ containsKey (runOps (mkSL 3) [Op.ins (FKey.num 5) 7 2]) (FKey.num 5) = true)
    ∧ ((runOps (mkSL 3) [Op.ins (FKey.num 5) 7 2]).Insert (FKey.num 5) 99 1).Len
        = (runOps (mkSL 3) [Op.ins (FKey.num 5) 7 2]).Len
    ∧ ((runOps (mkSL 3) [Op.ins (FKey.num 5) 7 2]).Insert
        (FKey.num 5) 99 1).Search (FKey.num 5) = some 99 :=
  ⟨⟨by omega, by decide, by decide⟩,
    (skiplist_C4_upsert 3 (by omega) _ (by decide) (FKey.num 5) 99 1 (by decide)).1,
    (skiplist_C4_upsert 3 (by omega) _ (by decide) (FKey.num 5) 99 1
      (by decide)).2.2.2.2.2.2⟩

theorem foundIdx_of_not_contains {s : SL} {L : List Nat} {k : FKey} (hI : SLInv s L)
    (habs : containsKey s k = false) : foundIdx s L k = none := by
  cases hF : foundIdx s L k with
  | none => rfl
  | some j =>
    rw [(containsKey_iff_foundIdx hI k).mpr (by rw [hF]; rfl)] at habs
    exact absurd habs (by simp)

/-! ## Claim C5 -/

/-- C5: inserting an absent non-NaN key and then popping it returns exactly
the inserted value, and a subsequent `Search` for that key reports
not-found. -/
theorem skiplist_C5_roundtrip (m : Nat) (hm : 1 ≤ m) (ops : List Op)
    (hok : ∀ o ∈ ops, o.ok m) (k : FKey) (hk : k ≠ FKey.nan)
    (v : Int) (lvl : Nat) (hl1 : 1 ≤ lvl) (hlm : lvl ≤ m)
    (habs : containsKey (runOps (mkSL m) ops) k = false) :
    (((runOps (mkSL m) ops).Insert k v lvl).PopP k).1 = some v
    ∧ (((runOps (mkSL m) ops).Insert k v lvl).PopP k).2.Search k = none := by
  obtain ⟨L, hI, hmax⟩ := runOps_SLInv hm ops hok
  set s : SL := runOps (mkSL m) ops with hsdef
  have hF : foundIdx s L k = none := foundIdx_of_not_contains hI habs
  have hI' : SLInv (s.Insert k v lvl) (newL s L k) :=
    insert_new_SLInv hI hk hl1 (by omega) hF
  have hins : s.Insert k v lvl = insFin s k v lvl := insert_new_eq hI hF v lvl
  have hmemT : ∀ a ∈ L.takeWhile (fltb s k), fltb (s.Insert k v lvl) k a = true := by
    intro a ha
    have haL : a ∈ L := (List.takeWhile_sublist _).mem ha
    have hane : a ≠ s.numNodes := by have := (hI.hval a haL).2; omega
    show flt (keyOf (s.Insert k v lvl) a) k = true
    rw [hins, insFin_keyOf, if_neg hane]
    exact List.mem_takeWhile_imp (p := fltb s k) ha
  have hnidf : fltb (s.Insert k v lvl) k s.numNodes = false := by
    show flt (keyOf (s.Insert k v lvl) s.numNodes) k = false
    rw [hins, insFin_keyOf, if_pos rfl]
    exact flt_irrefl k
  have hchain0 : chainL (s.Insert k v lvl) (newL s L k) 0 = newL s L k := chainL0_eq hI'
  have hdrop : (chainL (s.Insert k v lvl) (newL s L k) 0).dropWhile
      (fltb (s.Insert k v lvl) k) = s.numNodes :: L.dropWhile (fltb s k) := by
    rw [hchain0]
    exact dropWhile_middle _ _ _ _ hmemT hnidf
  have hF' : foundIdx (s.Insert k v lvl) (newL s L k) k = some s.numNodes := by
    unfold foundIdx
    rw [hdrop]
    have hfeqn : feq (keyOf (s.Insert k v lvl) s.numNodes) k = true := by
      rw [hins, insFin_keyOf, if_pos rfl]
      exact feq_self_of_ne_nan hk
    show (if feq (keyOf (s.Insert k v lvl) s.numNodes) k = true
        then some s.numNodes else none) = some s.numNodes
    rw [hfeqn]
    simp
  have hpop := pop_found_eq hI' hF'
  have hI'' := pop_found_SLInv hI' hF'
  constructor
  · rw [hpop]
    show some ((popMid (s.Insert k v lvl) k s.numNodes).node s.numNodes).value = some v
    rw [popMid_value]
    rw [hins]
    rw [insFin_value, if_pos rfl]
  · rw [hpop]
    show (popFin (s.Insert k v lvl) k s.numNodes).Search k = none
    rw [search_spec hI'' k]
    cases hF2 : foundIdx (popFin (s.Insert k v lvl) k s.numNodes)
        (popL (s.Insert k v lvl) (newL s L k) k) k with
    | none => rfl
    | some d =>
      obtain ⟨hdmem, hdfeq⟩ := foundIdx_some hI'' hF2
      have hdpop : d ∈ popL (s.Insert k v lvl) (newL s L k) k := hdmem
      have hdL : d ∈ L := by
        unfold popL at hdpop
        have htake : (newL s L k).takeWhile (fltb (s.Insert k v lvl) k)
            = L.takeWhile (fltb s k) := takeWhile_middle _ _ _ _ hmemT hnidf
        have hdrop2 : (newL s L k).dropWhile (fltb (s.Insert k v lvl) k)
            = s.numNodes :: L.dropWhile (fltb s k) :=
          dropWhile_middle _ _ _ _ hmemT hnidf
        rw [htake, hdrop2] at hdpop
        rcases List.mem_append.mp hdpop with h | h
        · exact (List.takeWhile_sublist _).mem h
        · exact (List.dropWhile_sublist _).mem h
      have hdne : d ≠ s.numNodes := by have := (hI.hval d hdL).2; omega
      have hkeyd : keyOf (popFin (s.Insert k v lvl) k s.numNodes) d = keyOf s d := by
        rw [popFin_keyOf, hins, insFin_keyOf, if_neg hdne]
      rw [hkeyd] at hdfeq
      rw [foundIdx_none hI hF d hdL] at hdfeq
      exact absurd hdfeq (by simp)

/-- Witness for C5 at a concrete run. -/
theorem skiplist_C5_witness :
    (1 ≤ 3 ∧ (∀ o ∈ [Op.ins (FKey.num 5) 7 2], o.ok 3)
      ∧ FKey.num 9 ≠ FKey.nan
      ∧ containsKey (runOps (mkSL 3) [Op.ins (FKey.num 5) 7 2]) (FKey.num 9) = false)
    ∧ (((runOps (mkSL 3) [Op.ins (FKey.num 5) 7 2]).Insert
        (FKey.num 9) 42 2).PopP (FKey.num 9)).1 = some 42
    ∧ (((runOps (mkSL 3) [Op.ins (FKey.num 5) 7 2]).Insert
        (FKey.num 9) 42 2).PopP (FKey.num 9)).2.Search (FKey.num 9) = none :=
  ⟨⟨by omega, by decide, by decide, by decide⟩,
    (skiplist_C5_roundtrip 3 (by omega) _ (by decide) (FKey.num 9) (by decide)
      42 2 (by omega) (by omega) (by decide)).1,
    (skiplist_C5_roundtrip 3 (by omega) _ (by decide) (FKey.num 9) (by decide)
      42 2 (by omega) (by omega) (by decide)).2⟩

/-! ## Claim C6 -/

/-- C6: `Search`, `Pop`, and `Delete` on an absent key return the not-found
result (`none`), and `Pop`/`Delete` leave the length, the level, and the
whole node heap — links and values — unchanged. -/
theorem skiplist_C6_absent (m : Nat) (hm : 1 ≤ m) (ops : List Op)
    (hok : ∀ o ∈ ops, o.ok m) (k : FKey)
    (habs : containsKey (runOps (mkSL m) ops) k = false) :
    (runOps (mkSL m) ops).Search k = none
    ∧ ((runOps (mkSL m) ops).PopP k).1 = none
    ∧ ((runOps (mkSL m) ops).PopP k).2.length = (runOps (mkSL m) ops).length
    ∧ ((runOps (mkSL m) ops).PopP k).2.level = (runOps (mkSL m) ops).level
    ∧ ((runOps (mkSL m) ops).PopP k).2.node = (runOps (mkSL m) ops).node
    ∧ ((runOps (mkSL m) ops).Delete k).length = (runOps (mkSL m) ops).length
    ∧ ((runOps (mkSL m) ops).Delete k).level = (runOps (mkSL m) ops).level
    ∧ ((runOps (mkSL m) ops).Delete k).node = (runOps (mkSL m) ops).node := by
  obtain ⟨L, hI, _⟩ := runOps_SLInv hm ops hok
  have hF : foundIdx (runOps (mkSL m) ops) L k = none :=
    foundIdx_of_not_contains hI habs
  have hpop := pop_notfound_eq hI hF
  refine ⟨?_, ?_, ?_, ?_, ?_, ?_, ?_, ?_⟩
  · rw [search_spec hI k, hF]
    rfl
  · rw [hpop]
  · rw [hpop]
  · rw [hpop]
  · rw [hpop]
  · show ((runOps (mkSL m) ops).PopP k).2.length = _
    rw [hpop]
  · show ((runOps (mkSL m) ops).PopP k).2.level = _
    rw [hpop]
  · show ((runOps (mkSL m) ops).PopP k).2.node = _
    rw [hpop]

/-- Witness for C6 at a concrete run. -/
theorem skiplist_C6_witness :
    (1 ≤ 3 ∧ (∀ o ∈ [Op.ins (FKey.num 5) 7 2], o.ok 3)
      ∧ containsKey (runOps (mkSL 3) [Op.ins (FKey.num 5) 7 2]) (FKey.num 9) = false)
    ∧ (runOps (mkSL 3) [Op.ins (FKey.num 5) 7 2]).Search (FKey.num 9) = none
    ∧ ((runOps (mkSL 3) [Op.ins (FKey.num 5) 7 2]).PopP (FKey.num 9)).1 = none
    ∧ ((runOps (mkSL 3) [Op.ins (FKey.num 5) 7 2]).PopP (FKey.num 9)).2.length
        = (runOps (mkSL 3) [Op.ins (FKey.num 5) 7 2]).length :=
  ⟨⟨by omega, by decide, by decide⟩,
    (skiplist_C6_absent 3 (by omega) _ (by decide) (FKey.num 9) (by decide)).1,
    (skiplist_C6_absent 3 (by omega) _ (by decide) (FKey.num 9) (by decide)).2.1,
    (skiplist_C6_absent 3 (by omega) _ (by decide) (FKey.num 9) (by decide)).2.2.1⟩

/-! ## Claim C7 -/

/-- The keys of all `Insert` calls in a trace (the multiset of keys "ever
inserted"; `dedup` below makes it the distinct keys). -/
def insertedKeys : List Op → List FKey
  | [] => []
  | Op.ins k _ _ :: rest => k :: insertedKeys rest
  | Op.del _ :: rest => insertedKeys rest
  | Op.pop _ :: rest => insertedKeys rest

/-- The keys of the `Pop`/`Delete` calls that actually removed a node,
collected along the run. -/
def removedKeys (s : SL) : List Op → List FKey
  | [] => []
  | Op.ins k v l :: rest => removedKeys (s.Insert k v l) rest
  | Op.del k :: rest =>
      (if (s.PopP k).1.isSome then [k] else []) ++ removedKeys (s.Delete k) rest
  | Op.pop k :: rest =>
      (if (s.PopP k).1.isSome then [k] else []) ++ removedKeys ((s.PopP k).2) rest

/-- The number of `Insert` calls that allocated a node (key absent at call
time), along the run. -/
def createdCount (s : SL) : List Op → Int
  | [] => 0
  | Op.ins k v l :: rest =>
      (if containsKey s k = true then 0 else 1) + createdCount (s.Insert k v l) rest
  | Op.del k :: rest => createdCount (s.Delete k) rest
  | Op.pop k :: rest => createdCount ((s.PopP k).2) rest

/-- The number of `Pop`/`Delete` calls that removed a node (key present at
call time), along the run. -/
def removedCount (s : SL) : List Op → Int
  | [] => 0
  | Op.ins k v l :: rest => removedCount (s.Insert k v l) rest
  | Op.del k :: rest =>
      (if containsKey s k = true then 1 else 0) + removedCount (s.Delete k) rest
  | Op.pop k :: rest =>
      (if containsKey s k = true then 1 else 0) + removedCount ((s.PopP k).2) rest

/-- C7 counterexample: on the trace insert 1, pop 1, insert 1 the length is
1 but the number of distinct keys ever inserted (1) minus the number of
distinct keys successfully removed (1) is 0, so the claim's equation fails. -/
theorem skiplist_C7_counterexample :
    ¬ ((runOps (mkSL 2) [Op.ins (FKey.num 1) 5 1, Op.pop (FKey.num 1),
          Op.ins (FKey.num 1) 6 1]).Len
        = ((insertedKeys [Op.ins (FKey.num 1) 5 1, Op.pop (FKey.num 1),
            Op.ins (FKey.num 1) 6 1]).dedup.length : Int)
          - ((removedKeys (mkSL 2) [Op.ins (FKey.num 1) 5 1, Op.pop (FKey.num 1),
            Op.ins (FKey.num 1) 6 1]).dedup.length : Int)) := by
  decide

theorem not_contains_of_foundIdx_none {s : SL} {L : List Nat} {k : FKey}
    (hI : SLInv s L) (hF : foundIdx s L k = none) : containsKey s k = false := by
  cases h : containsKey s k with
  | false => rfl
  | true =>
    have := (containsKey_iff_foundIdx hI k).mp h
    rw [hF] at this
    exact absurd this (by simp)

theorem runOps_length_aux {m : Nat} :
    ∀ (ops : List Op) (s : SL) (L : List Nat), SLInv s L → s.maxLevel = m →
    (∀ o ∈ ops, o.ok m) →
    (runOps s ops).length = s.length + createdCount s ops - removedCount s ops := by
  intro ops
  induction ops with
  | nil =>
    intro s L hI _ _
    show s.length = s.length + 0 - 0
    ring
  | cons o rest ih =>
    intro s L hI hmax hok
    have hokr : ∀ o' ∈ rest, o'.ok m := fun o' ho' => hok o' (by simp [ho'])
    cases o with
    | ins k v lvl =>
      obtain ⟨hk, hl1, hlm⟩ := hok (Op.ins k v lvl) (by simp)
      have hstep : runOps s (Op.ins k v lvl :: rest) = runOps (s.Insert k v lvl) rest := rfl
      have hcc : createdCount s (Op.ins k v lvl :: rest)
          = (if containsKey s k = true then 0 else 1)
            + createdCount (s.Insert k v lvl) rest := rfl
      have hrc : removedCount s (Op.ins k v lvl :: rest)
          = removedCount (s.Insert k v lvl) rest := rfl
      rw [hstep, hcc, hrc]
      cases hF : foundIdx s L k with
      | some j =>
        have hc : containsKey s k = true :=
          (containsKey_iff_foundIdx hI k).mpr (by rw [hF]; rfl)
        have hI' := insert_found_SLInv hI hF v lvl
        obtain ⟨_, _, _, _, _, _, _, hlen, _, hmax', _⟩ := insert_found_facts hI hF v lvl
        rw [ih (s.Insert k v lvl) L hI' (by rw [hmax', hmax]) hokr, hlen, hc,
          if_pos rfl]
        ring
      | none =>
        have hc : containsKey s k = false := not_contains_of_foundIdx_none hI hF
        have hI' : SLInv (s.Insert k v lvl) (newL s L k) :=
          insert_new_SLInv hI hk hl1 (by omega) hF
        have hlen : (s.Insert k v lvl).length = s.length + 1 := by
          rw [insert_new_eq hI hF v lvl]
          exact (insFin_fields s k v lvl).2.1
        have hmax' : (s.Insert k v lvl).maxLevel = m := by
          rw [insert_new_eq hI hF v lvl, (insFin_fields s k v lvl).2.2.2.1, hmax]
        rw [ih (s.Insert k v lvl) (newL s L k) hI' hmax' hokr, hlen, hc,
          if_neg (by simp : ¬ (false = true))]
        ring
    | pop k =>
      have hstep : runOps s (Op.pop k :: rest) = runOps (s.PopP k).2 rest := rfl
      have hcc : createdCount s (Op.pop k :: rest)
          = createdCount (s.PopP k).2 rest := rfl
      have hrc : removedCount s (Op.pop k :: rest)
          = (if containsKey s k = true then 1 else 0)
            + removedCount (s.PopP k).2 rest := rfl
      rw [hstep, hcc, hrc]
      cases hF : foundIdx s L k with
      | some j =>
        have hc : containsKey s k = true :=
          (containsKey_iff_foundIdx hI k).mpr (by rw [hF]; rfl)
        have hpop := pop_found_eq hI hF
        have hI' : SLInv (s.PopP k).2 (popL s L k) := by
          rw [hpop]; exact pop_found_SLInv hI hF
        have hlen : (s.PopP k).2.length = s.length - 1 := by rw [hpop]; rfl
        have hmax' : (s.PopP k).2.maxLevel = m := by
          rw [hpop]
          show (popMid s k j).maxLevel = m
          rw [(popMid_fields s k j).2.2.1, hmax]
        rw [ih (s.PopP k).2 (popL s L k) hI' hmax' hokr, hlen, hc, if_pos rfl]
        ring
      | none =>
        have hc : containsKey s k = false := not_contains_of_foundIdx_none hI hF
        have hpop := pop_notfound_eq hI hF
        have hI' : SLInv (s.PopP k).2 L := pop_notfound_SLInv hI hF
        have hlen : (s.PopP k).2.length = s.length := by rw [hpop]
        have hmax' : (s.PopP k).2.maxLevel = m := by rw [hpop]; exact hmax
        rw [ih (s.PopP k).2 L hI' hmax' hokr, hlen, hc,
          if_neg (by simp : ¬ (false = true))]
        ring
    | del k =>
      have hstep : runOps s (Op.del k :: rest) = runOps (s.PopP k).2 rest := rfl
      have hcc : createdCount s (Op.del k :: rest)
          = createdCount (s.PopP k).2 rest := rfl
      have hrc : removedCount s (Op.del k :: rest)
          = (if containsKey s k = true then 1 else 0)
            + removedCount (s.PopP k).2 rest := rfl
      rw [hstep, hcc, hrc]
      cases hF : foundIdx s L k with
      | some j =>
        have hc : containsKey s k = true :=
          (containsKey_iff_foundIdx hI k).mpr (by rw [hF]; rfl)
        have hpop := pop_found_eq hI hF
        have hI' : SLInv (s.PopP k).2 (popL s L k) := by
          rw [hpop]; exact pop_found_SLInv hI hF
        have hlen : (s.PopP k).2.length = s.length - 1 := by rw [hpop]; rfl
        have hmax' : (s.PopP k).2.maxLevel = m := by
          rw [hpop]
          show (popMid s k j).maxLevel = m
          rw [(popMid_fields s k j).2.2.1, hmax]
        rw [ih (s.PopP k).2 (popL s L k) hI' hmax' hokr, hlen, hc, if_pos rfl]
        ring
      | none =>
        have hc : containsKey s k = false := not_contains_of_foundIdx_none hI hF
        have hpop := pop_notfound_eq hI hF
        have hI' : SLInv (s.PopP k).2 L := pop_notfound_SLInv hI hF
        have hlen : (s.PopP k).2.length = s.length := by rw [hpop]
        have hmax' : (s.PopP k).2.maxLevel = m := by rw [hpop]; exact hmax
        rw [ih (s.PopP k).2 L hI' hmax' hokr, hlen, hc,
          if_neg (by simp : ¬ (false = true))]
        ring

/-- C7 amended: `Len` equals the number of `Insert` calls whose key was
absent at call time minus the number of `Pop`/`Delete` calls whose key was
present at call time, and it also equals the number of real nodes reachable
from the head at level 0. -/
theorem skiplist_C7_amended (m : Nat) (hm : 1 ≤ m) (ops : List Op)
    (hok : ∀ o ∈ ops, o.ok m) :
    (runOps (mkSL m) ops).Len = createdCount (mkSL m) ops - removedCount (mkSL m) ops
    ∧ (runOps (mkSL m) ops).Len
      = ((chainList (runOps (mkSL m) ops) 0).length : Int) := by
  obtain ⟨L, hI, _⟩ := runOps_SLInv hm ops hok
  constructor
  · show (runOps (mkSL m) ops).length = _
    rw [runOps_length_aux ops (mkSL m) [] (mkSL_SLInv hm) rfl hok]
    show (0 : Int) + _ - _ = _
    ring
  · show (runOps (mkSL m) ops).length = _
    rw [chainList_eq_chainL hI 0, chainL0_eq hI]
    exact hI.hlen

/-- Witness for the amended C7 at a concrete run. -/
theorem skiplist_C7_witness :
    (1 ≤ 2 ∧ (∀ o ∈ [Op.ins (FKey.num 1) 5 1, Op.pop (FKey.num 1),
        Op.ins (FKey.num 1) 6 1], o.ok 2))
    ∧ (runOps (mkSL 2) [Op.ins (FKey.num 1) 5 1, Op.pop (FKey.num 1),
        Op.ins (FKey.num 1) 6 1]).Len
      = createdCount (mkSL 2) [Op.ins (FKey.num 1) 5 1, Op.pop (FKey.num 1),
          Op.ins (FKey.num 1) 6 1]
        - removedCount (mkSL 2) [Op.ins (FKey.num 1) 5 1, Op.pop (FKey.num 1),
          Op.ins (FKey.num 1) 6 1]
    ∧ (runOps (mkSL 2) [Op.ins (FKey.num 1) 5 1, Op.pop (FKey.num 1),
        Op.ins (FKey.num 1) 6 1]).Len
      = ((chainList (runOps (mkSL 2) [Op.ins (FKey.num 1) 5 1,
          Op.pop (FKey.num 1), Op.ins (FKey.num 1) 6 1]) 0).length : Int) :=
  ⟨⟨by omega, by decide⟩,
    (skiplist_C7_amended 2 (by omega) _ (by decide)).1,
    (skiplist_C7_amended 2 (by omega) _ (by decide)).2⟩

/-! ## Claim C8 -/

/-- C8: constructing with `WithMaxLevel v` panics (modelled as `none`)
exactly when `v` is outside `[1, 64]`; inside the range construction
succeeds with exactly that max level — the value is never clamped. -/
theorem skiplist_C8_maxlevel (v : Int) :
    ((1 ≤ v ∧ v ≤ 64) →
      ∃ s, newWithMaxLevel v = some s ∧ (s.maxLevel : Int) = v)
    ∧ (¬ (1 ≤ v ∧ v ≤ 64) → newWithMaxLevel v = none) := by
  constructor
  · rintro ⟨h1, h2⟩
    refine ⟨mkSL v.toNat, ?_, ?_⟩
    · unfold newWithMaxLevel
      rw [if_neg]
      unfold minLevelC maxLevelC
      push_cast
      omega
    · show ((v.toNat : Nat) : Int) = v
      omega
  · intro h
    unfold newWithMaxLevel
    rw [if_pos]
    unfold minLevelC maxLevelC
    push_cast
    omega

/-- Witness for C8: max level 7 is accepted verbatim, 0 and 65 are rejected. -/
theorem skiplist_C8_witness :
    ((1 ≤ (7 : Int) ∧ (7 : Int) ≤ 64)
      ∧ ¬ (1 ≤ (0 : Int) ∧ (0 : Int) ≤ 64)
      ∧ ¬ (1 ≤ (65 : Int) ∧ (65 : Int) ≤ 64))
    ∧ (∃ s, newWithMaxLevel 7 = some s ∧ (s.maxLevel : Int) = 7)
    ∧ newWithMaxLevel 0 = none
    ∧ newWithMaxLevel 65 = none :=
  ⟨⟨by omega, by omega, by omega⟩,
    (skiplist_C8_maxlevel 7).1 (by omega),
    (skiplist_C8_maxlevel 0).2 (by omega),
    (skiplist_C8_maxlevel 65).2 (by omega)⟩

/-! ## Claim C9 -/

/-- C9 counterexample: the claim says `Len` acquires the shared (read) lock,
but in the source `Len` calls `list.mut.Lock()`, the exclusive lock. -/
theorem skiplist_C9_counterexample :
    ¬ (searchLock = LockMode.shared ∧ lenLock = LockMode.shared
      ∧ insertLock = LockMode.exclusive ∧ deleteLock = LockMode.exclusive
      ∧ popLock = LockMode.exclusive) := by
  decide

/-- C9 amended: `Search` acquires the shared lock; `Insert`, `Delete`,
`Pop`, and also `Len` acquire the exclusive lock. -/
theorem skiplist_C9_amended :
    searchLock = LockMode.shared ∧ lenLock = LockMode.exclusive
    ∧ insertLock = LockMode.exclusive ∧ deleteLock = LockMode.exclusive
    ∧ popLock = LockMode.exclusive := by
  decide

/-! ## Claim C10 -/

theorem insert_nan_eq (s : SL) (v : Int) (lvl : Nat) :
    s.Insert FKey.nan v lvl = insFin s FKey.nan v lvl := by
  show (match (match getNext s (descend s FKey.nan s.level 0 s.update).1 0 with
     | some jj => if feq (keyOf s jj) FKey.nan then some jj else none
     | none => none) with
    | some j => { s with
        update := (descend s FKey.nan s.level 0 s.update).2
        node := fun j' => if j' = j then { s.node j with value := v } else s.node j' }
    | none => insFin s FKey.nan v lvl) = _
  have hdup : (match getNext s (descend s FKey.nan s.level 0 s.update).1 0 with
     | some jj => if feq (keyOf s jj) FKey.nan then some jj else none
     | none => none) = none := by
    cases getNext s (descend s FKey.nan s.level 0 s.update).1 0 with
    | none => rfl
    | some j =>
      show (if feq (keyOf s j) FKey.nan = true then some j else none) = none
      rw [feq_nan_right]
      simp
  rw [hdup]

theorem pop_nan_eq (s : SL) :
    s.PopP FKey.nan = (none, { s with update := insUpd s FKey.nan }) := by
  rw [pop_cases_eq s FKey.nan]
  cases (insUpd s FKey.nan).getD 0 none with
  | none => rfl
  | some u0 =>
    show (match getNext s u0 0 with
      | none => ((none : Option Int), { s with update := insUpd s FKey.nan })
      | some j => if feq (keyOf s j) FKey.nan
          then (some ((popMid s FKey.nan j).node j).value, popFin s FKey.nan j)
          else ((none : Option Int), { s with update := insUpd s FKey.nan })) = _
    cases getNext s u0 0 with
    | none => rfl
    | some j =>
      show (if feq (keyOf s j) FKey.nan = true then _ else _) = _
      rw [feq_nan_right]
      simp

/-- C10: with the NaN key, `Insert` always allocates a fresh node and
increments the length (the overwrite branch is unreachable because
`x == NaN` is always false), while `Search` always returns `nil` and `Pop`
always returns `nil` without touching any node, the length, or the level —
so NaN-keyed nodes are unfindable and unremovable, and repeated NaN inserts
grow the list without bound.  This holds for every state, no invariant
needed. -/
theorem skiplist_C10_nan (s : SL) (v : Int) (lvl : Nat) :
    (s.Insert FKey.nan v lvl).numNodes = s.numNodes + 1
    ∧ (s.Insert FKey.nan v lvl).length = s.length + 1
    ∧ s.Search FKey.nan = none
    ∧ (s.PopP FKey.nan).1 = none
    ∧ (s.PopP FKey.nan).2.node = s.node
    ∧ (s.PopP FKey.nan).2.length = s.length
    ∧ (s.PopP FKey.nan).2.level = s.level := by
  refine ⟨?_, ?_, ?_, ?_, ?_, ?_, ?_⟩
  · rw [insert_nan_eq s v lvl]
    exact (insFin_fields s FKey.nan v lvl).2.2.1
  · rw [insert_nan_eq s v lvl]
    exact (insFin_fields s FKey.nan v lvl).2.1
  · show (match getNext s (descendRO s FKey.nan s.level 0) 0 with
      | some j => if feq (keyOf s j) FKey.nan then some (s.node j).value else none
      | none => none) = none
    cases getNext s (descendRO s FKey.nan s.level 0) 0 with
    | none => rfl
    | some j =>
      show (if feq (keyOf s j) FKey.nan = true then some (s.node j).value else none) = none
      rw [feq_nan_right]
      simp
  all_goals rw [pop_nan_eq s]
